import Mathlib

/-!
A shallow embedding of fast-matmul: `lib/matrix.h` and `lib/matmul.h`

`fastmm::Matrix<T>` owns `std::vector<std::vector<T>> m_data`.  The embedding keeps
that representation (a list of rows), threads the mutated matrix through every loop,
and makes each operation whose C++ behaviour is undefined or fatal return a `Fault`:

* `m_data.front()` / `*std::begin(init)` of an empty sequence  ↦ `Fault.emptyFront`
* `v[i]` with `i ≥ v.size()` (read or write)                    ↦ `Fault.outOfRange`
* a failed `assert`                                             ↦ `Fault.assertFailed`

The element type is any `α` with `0`, `+` and `*`; no algebraic law is assumed unless
a theorem says so.
-/

namespace fastmm

/-- The ways an operation of the library can leave defined behaviour. -/
inductive Fault where
  /-- Calling `front()` (or `*begin()`) on an empty sequence. -/
  | emptyFront
  /-- Calling `operator[]` of a `std::vector` with an index that is not below its size. -/
  | outOfRange
  /-- A failed `assert`: the process aborts. -/
  | assertFailed
deriving DecidableEq, Repr

/-- Source `std::vector<T>::operator[]` used as a read. -/
def vecAt {β : Type} (v : List β) (i : Nat) : Except Fault β :=
  match v[i]? with
  | some x => .ok x
  | none => .error .outOfRange

/-- Source `std::vector<T>::operator[]` used as the target of an assignment. -/
def vecSet {β : Type} (v : List β) (i : Nat) (x : β) : Except Fault (List β) :=
  if i < v.length then .ok (v.set i x) else .error .outOfRange

/-- The loop `for (size_t i = 0; i < n; ++i) body(i)` over a threaded state: the state after
`n + 1` iterations is iteration `n` applied to the state after the first `n`. -/
def forLoop {σ : Type} (body : Nat → σ → Except Fault σ) : Nat → σ → Except Fault σ
  | 0, s => .ok s
  | n + 1, s => forLoop body n s >>= body n

/-- Source `std::inner_product(first1, last1, first2, init)`: walks the first range to its end,
reading the second range at the same offsets, `init = init + (*first1) * (*first2)`. -/
def inner_product {α : Type} [Add α] [Mul α] : List α → List α → α → Except Fault α
  | [], _, init => .ok init
  | _ :: _, [], _ => .error .outOfRange
  | x :: xs, y :: ys, init => inner_product xs ys (init + x * y)

/-- Source `class Matrix`: its one data member. -/
structure Matrix (α : Type) where
  m_data : List (List α)
deriving DecidableEq, Repr

namespace Matrix

variable {α : Type}

/-- Source `Matrix::Matrix() = default`. -/
def ctor0 : Matrix α := ⟨[]⟩

/-- Source `Matrix::Matrix(size_t m, size_t n) : m_data(m, std::vector<T>(n))`: value-initialised
elements. -/
def ctorMN [Zero α] (m n : Nat) : Matrix α := ⟨List.replicate m (List.replicate n 0)⟩

/-- Source `Matrix::Matrix(size_t n) : m_data(n, std::vector<T>(n))`. -/
def ctorN [Zero α] (n : Nat) : Matrix α := ⟨List.replicate n (List.replicate n 0)⟩

/-- Source `Matrix::fill`: `std::fill` over every row. -/
def fill (M : Matrix α) (value : α) : Matrix α :=
  ⟨M.m_data.map (fun row => row.map (fun _ => value))⟩

/-- Source `Matrix::Matrix(size_t m, size_t n, T value) : Matrix(m, n) { fill(value); }`. -/
def ctorMNV [Zero α] (m n : Nat) (value : α) : Matrix α := (ctorMN m n).fill value

/-- Source `Matrix::height`. -/
def height (M : Matrix α) : Nat := M.m_data.length

/-- Source `Matrix::width`: `m_data.front().size()`. -/
def width (M : Matrix α) : Except Fault Nat :=
  match M.m_data with
  | [] => .error .emptyFront
  | row :: _ => .ok row.length

/-- Source `Matrix::shape`: `{ height(), width() }`. -/
def shape (M : Matrix α) : Except Fault (Nat × Nat) := do
  let w ← M.width
  pure (M.height, w)

/-- Source `Matrix::operator[]` (both overloads): `m_data[i]`. -/
def operator_idx (M : Matrix α) (i : Nat) : Except Fault (List α) := vecAt M.m_data i

/-- The expression `M[i][j]` read as a value. -/
def read (M : Matrix α) (i j : Nat) : Except Fault α := do
  let row ← M.operator_idx i
  vecAt row j

/-- The statement `M[i][j] = x`. -/
def write (M : Matrix α) (i j : Nat) (x : α) : Except Fault (Matrix α) := do
  let row ← M.operator_idx i
  let row' ← vecSet row j x
  let data ← vecSet M.m_data i row'
  pure ⟨data⟩

/-- Source `Matrix::Matrix(std::initializer_list<std::initializer_list<T>> init)`: delegates to
`Matrix(init.size(), std::begin(init)->size())`, then copies element by element with the
running indices `i`, `j`. -/
def ctorInit [Zero α] (init : List (List α)) : Except Fault (Matrix α) :=
  match init with
  | [] => .error .emptyFront
  | first :: _ => do
    let start : Matrix α := ctorMN init.length first.length
    let (done, _) ← init.foldlM (fun (st : Matrix α × Nat) row => do
      let (inRow, _) ← row.foldlM (fun (st' : Matrix α × Nat) el => do
        let next ← st'.1.write st.2 st'.2 el
        pure (next, st'.2 + 1)) (st.1, 0)
      pure (inRow, st.2 + 1)) (start, 0)
    pure done

/-- Source `Matrix::transpose`. -/
def transpose [Zero α] (M : Matrix α) : Except Fault (Matrix α) := do
  let (m, n) ← M.shape
  let transposed : Matrix α := ctorMN n m
  forLoop (fun i t =>
    forLoop (fun j t => do
      let x ← M.read i j
      t.write j i x) n t) m transposed

/-- Source `Matrix::operator*`. -/
def operator_mul [Zero α] [Add α] [Mul α] (self rhs : Matrix α) : Except Fault (Matrix α) := do
  let (m1, _n1) ← self.shape
  let (_m2, n2) ← rhs.shape
  let rhs_t ← rhs.transpose
  let product : Matrix α := ctorMN m1 n2
  forLoop (fun i prod => do
    let row ← self.operator_idx i
    forLoop (fun j prod => do
      let col ← rhs_t.operator_idx j
      let v ← inner_product row col 0
      prod.write i j v) n2 prod) m1 product

end Matrix

/-- The function `matmul_v0` of `lib/matmul.h`.  Its second line is written `b.width()` in the source
and is read here as `b.shape()`, the only reading under which the binding `[s, n]`
is well formed. -/
def matmul_v0 {α : Type} [Zero α] [Add α] [Mul α] (a b : Matrix α) :
    Except Fault (Matrix α) := do
  let (m, p) ← a.shape
  let (s, n) ← b.shape
  if p ≠ s then throw Fault.assertFailed
  let c : Matrix α := Matrix.ctorMNV m n 0
  forLoop (fun i c =>
    forLoop (fun j c => do
      let c ← c.write i j 0
      forLoop (fun k c => do
        let cij ← c.read i j
        let aik ← a.read i k
        let bkj ← b.read k j
        c.write i j (cij + aik * bkj)) p c) n c) m c

/-- Rectangular with `m` rows of `n` elements each. -/
def Matrix.hasDims {α : Type} (M : Matrix α) (m n : Nat) : Prop :=
  M.m_data.length = m ∧ ∀ row ∈ M.m_data, row.length = n

instance {α : Type} (M : Matrix α) (m n : Nat) : Decidable (M.hasDims m n) := by
  unfold Matrix.hasDims; infer_instance

/-- Total accessor used on the specification side: the element at row `i`, column `j`,
and `0` outside the buffer. -/
def Matrix.entryD {α : Type} [Zero α] (M : Matrix α) (i j : Nat) : α :=
  (M.m_data.getD i []).getD j 0

/-- The matrix with the element at row `i`, column `j` replaced by `x`. -/
def Matrix.upd {α : Type} (M : Matrix α) (i j : Nat) (x : α) : Matrix α :=
  ⟨M.m_data.set i ((M.m_data.getD i []).set j x)⟩

/-- Left-to-right accumulation `(((init + f 0) + f 1) + ...) + f (k - 1)`. -/
def accumulate {α : Type} [Add α] (init : α) (f : Nat → α) : Nat → α
  | 0 => init
  | k + 1 => accumulate init f k + f k

/-- The cell `(i, j)` of the product: `0 + a[i][0]*b[0][j] + ... + a[i][p-1]*b[p-1][j]`,
summed left to right. -/
def cellSum {α : Type} [Zero α] [Add α] [Mul α] (a b : Matrix α) (p i j : Nat) : α :=
  accumulate 0 (fun k => a.entryD i k * b.entryD k j) p

/-- The `n × n` identity matrix over the integers: ones on the diagonal, zeros elsewhere. -/
def identity (n : Nat) : Matrix Int :=
  ⟨(List.range n).map fun i => (List.range n).map fun j => if i = j then 1 else 0⟩

/-- How C++ classifies a fault: the library has no error a caller can observe and recover
from, only undefined behaviour and `abort`. -/
inductive FaultKind where
  | undefinedBehaviour
  | abort
deriving DecidableEq, Repr

/-- The kind of each fault: unchecked accesses are undefined behaviour, a failed `assert`
aborts the process. -/
def Fault.kind : Fault → FaultKind
  | .emptyFront => .undefinedBehaviour
  | .outOfRange => .undefinedBehaviour
  | .assertFailed => .abort

/-- All rows have the same length. -/
def Matrix.rectangular {α : Type} (M : Matrix α) : Prop :=
  ∀ r ∈ M.m_data, ∀ r' ∈ M.m_data, r.length = r'.length

instance {α : Type} (M : Matrix α) : Decidable M.rectangular := by
  unfold Matrix.rectangular; infer_instance

/-- The inner loop body of the initializer-list constructor at row `i`:
`m_data[i][j] = el; ++j;` on the state (matrix, `j`). -/
def copyEl {α : Type} (i : Nat) (st : Matrix α × Nat) (el : α) :
    Except Fault (Matrix α × Nat) :=
  st.1.write i st.2 el >>= fun next => pure (next, st.2 + 1)

/-- The outer loop body of the initializer-list constructor: copy one literal row with `j`
starting at `0`, then `++i`, on the state (matrix, `i`). -/
def copyRow {α : Type} (st : Matrix α × Nat) (row : List α) :
    Except Fault (Matrix α × Nat) :=
  row.foldlM (copyEl st.2) (st.1, 0) >>= fun r => pure (r.1, st.2 + 1)

/-- A literal row followed by as many zeros as it takes to reach length `n`. -/
def padRow {α : Type} [Zero α] (n : Nat) (row : List α) : List α :=
  row ++ List.replicate (n - row.length) 0

/-- An unsigned integer of `w` bits: a natural number whose sums and products are reduced
modulo `2 ^ w`, as C++ unsigned arithmetic wraps around. -/
structure UWord (w : Nat) where
  val : Nat
deriving DecidableEq, Repr

instance (w : Nat) : Zero (UWord w) := ⟨⟨0⟩⟩

instance (w : Nat) : Add (UWord w) := ⟨fun a b => ⟨(a.val + b.val) % 2 ^ w⟩⟩

instance (w : Nat) : Mul (UWord w) := ⟨fun a b => ⟨(a.val * b.val) % 2 ^ w⟩⟩

/-! ## Basic facts about the embedding -/

@[simp] theorem ok_bind {β γ : Type} (a : β) (f : β → Except Fault γ) :
    (Except.ok a >>= f) = f a := rfl

@[simp] theorem error_bind {β γ : Type} (e : Fault) (f : β → Except Fault γ) :
    ((Except.error e : Except Fault β) >>= f) = Except.error e := rfl

@[simp] theorem pure_eq_ok {β : Type} (a : β) : (pure a : Except Fault β) = Except.ok a := rfl

/-- Total correctness of a counted loop from an invariant. -/
theorem forLoop_inv {σ : Type} (body : Nat → σ → Except Fault σ) (Inv : Nat → σ → Prop)
    (n : Nat) (s0 : σ) (h0 : Inv 0 s0)
    (hstep : ∀ i s, i < n → Inv i s → ∃ s', body i s = .ok s' ∧ Inv (i + 1) s') :
    ∃ s', forLoop body n s0 = .ok s' ∧ Inv n s' := by
  induction n with
  | zero => exact ⟨s0, rfl, h0⟩
  | succ n ih =>
    obtain ⟨s1, h1, hI1⟩ := ih (fun i s hi hI => hstep i s (Nat.lt_succ_of_lt hi) hI)
    obtain ⟨s2, h2, hI2⟩ := hstep n s1 (Nat.lt_succ_self n) hI1
    exact ⟨s2, by simp [forLoop, h1, h2], hI2⟩

theorem vecAt_of_lt {β : Type} (v : List β) (i : Nat) (d : β) (h : i < v.length) :
    vecAt v i = .ok (v.getD i d) := by
  simp [vecAt, List.getD_eq_getElem?_getD, List.getElem?_eq_getElem h]

theorem vecAt_of_ge {β : Type} (v : List β) (i : Nat) (h : v.length ≤ i) :
    vecAt v i = .error .outOfRange := by
  simp [vecAt, List.getElem?_eq_none h]

namespace Matrix

variable {α : Type}

theorem row_length_of_hasDims {M : Matrix α} {m n i : Nat} (h : M.hasDims m n) (hi : i < m) :
    (M.m_data.getD i []).length = n := by
  obtain ⟨hl, hr⟩ := h
  have hi' : i < M.m_data.length := hl ▸ hi
  rw [List.getD_eq_getElem _ _ hi']
  exact hr _ (List.getElem_mem hi')

theorem operator_idx_of_lt (M : Matrix α) {i : Nat} (hi : i < M.m_data.length) :
    M.operator_idx i = .ok (M.m_data.getD i []) :=
  vecAt_of_lt _ _ _ hi

theorem read_of_hasDims [Zero α] {M : Matrix α} {m n i j : Nat} (h : M.hasDims m n)
    (hi : i < m) (hj : j < n) : M.read i j = .ok (M.entryD i j) := by
  have hi' : i < M.m_data.length := h.1 ▸ hi
  have hj' : j < (M.m_data.getD i []).length := (row_length_of_hasDims h hi).symm ▸ hj
  unfold read
  rw [operator_idx_of_lt M hi', ok_bind, vecAt_of_lt _ _ (0 : α) hj']
  rfl

theorem write_of_hasDims {M : Matrix α} {m n i j : Nat} (h : M.hasDims m n)
    (hi : i < m) (hj : j < n) (x : α) : M.write i j x = .ok (M.upd i j x) := by
  have hi' : i < M.m_data.length := h.1 ▸ hi
  have hj' : j < (M.m_data.getD i []).length := (row_length_of_hasDims h hi).symm ▸ hj
  unfold write
  rw [operator_idx_of_lt M hi', ok_bind]
  simp only [vecSet, if_pos hj', if_pos hi', ok_bind, pure_eq_ok]
  rfl

theorem upd_hasDims {M : Matrix α} {m n i : Nat} (h : M.hasDims m n) (hi : i < m)
    (j : Nat) (x : α) : (M.upd i j x).hasDims m n := by
  refine ⟨by simp [upd, h.1], ?_⟩
  intro row hrow
  rcases List.mem_or_eq_of_mem_set hrow with hmem | rfl
  · exact h.2 row hmem
  · simpa using row_length_of_hasDims h hi

theorem entryD_upd [Zero α] {M : Matrix α} {m n i j : Nat} (h : M.hasDims m n)
    (hi : i < m) (hj : j < n) (x : α) (a b : Nat) :
    (M.upd i j x).entryD a b = if a = i ∧ b = j then x else M.entryD a b := by
  have hi' : i < M.m_data.length := h.1 ▸ hi
  have hj' : j < (M.m_data.getD i []).length := (row_length_of_hasDims h hi).symm ▸ hj
  have hj'' : j < M.m_data[i].length := by
    rw [List.getD_eq_getElem _ _ hi'] at hj'
    exact hj'
  unfold entryD upd
  by_cases ha : a = i
  · subst ha
    by_cases hb : b = j
    · subst hb
      simp [List.getD_eq_getElem?_getD, List.getElem?_set, hi', hj'']
    · have hb' : ¬ j = b := fun e => hb e.symm
      simp [List.getD_eq_getElem?_getD, List.getElem?_set, hi', hb, hb']
  · have ha' : ¬ i = a := fun e => ha e.symm
    simp [List.getD_eq_getElem?_getD, List.getElem?_set, ha, ha']

theorem upd_upd {M : Matrix α} {i : Nat} (hi : i < M.m_data.length) (j : Nat) (x y : α) :
    (M.upd i j x).upd i j y = M.upd i j y := by
  simp [upd, List.getD_eq_getElem?_getD, List.getElem?_set, hi]

theorem ext_of_entryD [Zero α] {M N : Matrix α} {m n : Nat} (hM : M.hasDims m n)
    (hN : N.hasDims m n) (he : ∀ i, i < m → ∀ j, j < n → M.entryD i j = N.entryD i j) :
    M = N := by
  cases M with
  | mk d =>
  cases N with
  | mk e =>
  simp only [Matrix.mk.injEq]
  apply List.ext_getElem (hM.1.trans hN.1.symm)
  intro i h1 h2
  have him : i < m := hM.1 ▸ h1
  have l1 := row_length_of_hasDims hM him
  have l2 := row_length_of_hasDims hN him
  simp only [List.getD_eq_getElem _ _ h1, List.getD_eq_getElem _ _ h2] at l1 l2
  apply List.ext_getElem (l1.trans l2.symm)
  intro j g1 g2
  have hjn : j < n := l1 ▸ g1
  have e1 : (Matrix.mk d).entryD i j = d[i][j] := by
    unfold entryD
    rw [List.getD_eq_getElem _ _ h1, List.getD_eq_getElem _ _ g1]
  have e2 : (Matrix.mk e).entryD i j = e[i][j] := by
    unfold entryD
    rw [List.getD_eq_getElem _ _ h2, List.getD_eq_getElem _ _ g2]
  rw [← e1, ← e2]
  exact he i him j hjn

theorem shape_of_hasDims {M : Matrix α} {m n : Nat} (h : M.hasDims m n) (hm : 1 ≤ m) :
    M.shape = .ok (m, n) := by
  obtain ⟨hl, hr⟩ := h
  cases M with
  | mk d =>
  cases d with
  | nil => simp at hl; omega
  | cons row rest =>
    have hrow : row.length = n := hr row (List.mem_cons_self _ _)
    simp only [shape, width, height, ok_bind, pure_eq_ok, hrow]
    rw [hl]

theorem pos_of_shape_ok {M : Matrix α} {m n : Nat} (h : M.shape = .ok (m, n)) :
    1 ≤ m ∧ M.m_data.length = m := by
  cases M with
  | mk d =>
  cases d with
  | nil => simp [shape, width] at h
  | cons row rest =>
    simp only [shape, width, height, ok_bind, pure_eq_ok, Except.ok.injEq, Prod.mk.injEq] at h
    simp only [List.length_cons] at h ⊢
    omega

theorem ctorMN_hasDims [Zero α] (m n : Nat) : (ctorMN m n : Matrix α).hasDims m n := by
  refine ⟨by simp [ctorMN], ?_⟩
  intro row hrow
  simp only [ctorMN] at hrow
  rw [List.eq_of_mem_replicate hrow]
  simp

theorem fill_hasDims {M : Matrix α} {m n : Nat} (h : M.hasDims m n) (v : α) :
    (M.fill v).hasDims m n := by
  refine ⟨by simp [fill, h.1], ?_⟩
  intro row hrow
  simp only [fill, List.mem_map] at hrow
  obtain ⟨r, hr, rfl⟩ := hrow
  simpa using h.2 r hr

theorem ctorMNV_hasDims [Zero α] (m n : Nat) (v : α) :
    (ctorMNV m n v : Matrix α).hasDims m n :=
  fill_hasDims (ctorMN_hasDims m n) v

/-- A doubly nested loop whose body at `(i, j)` overwrites the cell `tgt i j` with `g i j`
fills every targeted cell, whatever the matrix it starts from. -/
theorem nested_fill [Zero α] (outer : Nat → Matrix α → Except Fault (Matrix α))
    (inner : Nat → Nat → Matrix α → Except Fault (Matrix α))
    (tgt : Nat → Nat → Nat × Nat) (g : Nat → Nat → α) (R C m n : Nat)
    (hout : ∀ i c, i < m → c.hasDims R C → outer i c = forLoop (inner i) n c)
    (hin : ∀ i j c, i < m → j < n → c.hasDims R C →
      inner i j c = .ok (c.upd (tgt i j).1 (tgt i j).2 (g i j)))
    (hrange : ∀ i j, i < m → j < n → (tgt i j).1 < R ∧ (tgt i j).2 < C)
    (hinj : ∀ i j i' j', i < m → j < n → i' < m → j' < n →
      tgt i j = tgt i' j' → i = i' ∧ j = j')
    (c0 : Matrix α) (h0 : c0.hasDims R C) :
    ∃ c, forLoop outer m c0 = .ok c ∧ c.hasDims R C ∧
      ∀ i, i < m → ∀ j, j < n → c.entryD (tgt i j).1 (tgt i j).2 = g i j := by
  apply forLoop_inv outer
    (fun k c => c.hasDims R C ∧
      ∀ i, i < k → ∀ j, j < n → c.entryD (tgt i j).1 (tgt i j).2 = g i j) m c0
  · exact ⟨h0, fun i hi => absurd hi (Nat.not_lt_zero i)⟩
  · intro i c hi ⟨hc, hprev⟩
    rw [hout i c hi hc]
    have key := forLoop_inv (inner i)
      (fun k c' => c'.hasDims R C ∧
        (∀ i', i' < i → ∀ j, j < n → c'.entryD (tgt i' j).1 (tgt i' j).2 = g i' j) ∧
        (∀ j, j < k → c'.entryD (tgt i j).1 (tgt i j).2 = g i j)) n c
      ⟨hc, hprev, fun j hj => absurd hj (Nat.not_lt_zero j)⟩ ?_
    · obtain ⟨c', hrun, hd, hrows, hrow⟩ := key
      refine ⟨c', hrun, hd, ?_⟩
      intro i' hi' j hj
      rcases Nat.lt_succ_iff_lt_or_eq.mp hi' with hlt | rfl
      · exact hrows i' hlt j hj
      · exact hrow j hj
    · intro j c' hj ⟨hd, hrows, hrow⟩
      obtain ⟨hr1, hr2⟩ := hrange i j hi hj
      refine ⟨_, hin i j c' hi hj hd, upd_hasDims hd hr1 _ _, ?_, ?_⟩
      · intro i' hi' j' hj'
        rw [entryD_upd hd hr1 hr2, if_neg, hrows i' hi' j' hj']
        rintro ⟨e1, e2⟩
        have := (hinj i' j' i j (by omega) hj' hi hj (Prod.ext e1 e2)).1
        omega
      · intro j' hj'
        rw [entryD_upd hd hr1 hr2]
        rcases Nat.lt_succ_iff_lt_or_eq.mp hj' with hlt | rfl
        · rw [if_neg, hrow j' hlt]
          rintro ⟨e1, e2⟩
          have := (hinj i j' i j hi (by omega) hi hj (Prod.ext e1 e2)).2
          omega
        · simp

/-- What `transpose` computes on a rectangular matrix with at least one row. -/
theorem transpose_spec [Zero α] {M : Matrix α} {h w : Nat} (hd : M.hasDims h w)
    (hh : 1 ≤ h) :
    ∃ T, M.transpose = .ok T ∧ T.hasDims w h ∧
      ∀ i, i < h → ∀ j, j < w → T.entryD j i = M.entryD i j := by
  unfold transpose
  rw [shape_of_hasDims hd hh, ok_bind]
  exact nested_fill _ (fun i j t => M.read i j >>= fun x => t.write j i x)
    (fun i j => (j, i)) (fun i j => M.entryD i j) w h h w
    (fun i c _ _ => rfl)
    (fun i j c hi hj hc => by
      simp only [read_of_hasDims hd hi hj, ok_bind, write_of_hasDims hc hj hi])
    (fun i j hi hj => ⟨hj, hi⟩)
    (fun i j i' j' _ _ _ _ e => by
      simp only [Prod.mk.injEq] at e
      exact ⟨e.2, e.1⟩)
    _ (ctorMN_hasDims w h)

end Matrix

theorem accumulate_succ_left {α : Type} [Add α] (init : α) (f : Nat → α) (n : Nat) :
    accumulate init f (n + 1) = accumulate (init + f 0) (fun k => f (k + 1)) n := by
  induction n with
  | zero => rfl
  | succ n ih =>
    show accumulate init f (n + 1) + f (n + 1) = _
    rw [ih]
    rfl

theorem accumulate_congr {α : Type} [Add α] (init : α) (f g : Nat → α) (n : Nat)
    (h : ∀ k, k < n → f k = g k) : accumulate init f n = accumulate init g n := by
  induction n with
  | zero => rfl
  | succ n ih =>
    show accumulate init f n + f n = accumulate init g n + g n
    rw [ih (fun k hk => h k (Nat.lt_succ_of_lt hk)), h n (Nat.lt_succ_self n)]

/-- The call `std::inner_product` stays inside the second range when it is at least as long as
the first, and accumulates the products left to right. -/
theorem inner_product_eq {α : Type} [Zero α] [Add α] [Mul α] (xs ys : List α) (init : α)
    (h : xs.length ≤ ys.length) :
    inner_product xs ys init =
      .ok (accumulate init (fun k => xs.getD k 0 * ys.getD k 0) xs.length) := by
  induction xs generalizing ys init with
  | nil => rfl
  | cons x xs ih =>
    cases ys with
    | nil => simp at h
    | cons y ys =>
      have h' : xs.length ≤ ys.length := by simpa using h
      rw [inner_product, ih ys _ h', List.length_cons, accumulate_succ_left]
      simp

/-- The call `std::inner_product` reads past the end of the second range when it is shorter than
the first. -/
theorem inner_product_short {α : Type} [Add α] [Mul α] (xs ys : List α) (init : α)
    (h : ys.length < xs.length) : inner_product xs ys init = .error .outOfRange := by
  induction xs generalizing ys init with
  | nil => simp at h
  | cons x xs ih =>
    cases ys with
    | nil => rfl
    | cons y ys =>
      have h' : ys.length < xs.length := by simpa using h
      rw [inner_product, ih ys _ h']

/-- What `matmul_v0` computes on compatible rectangular operands. -/
theorem matmul_v0_spec {α : Type} [Zero α] [Add α] [Mul α] {a b : Matrix α} {m p n : Nat}
    (ha : a.hasDims m p) (hb : b.hasDims p n) (hm : 1 ≤ m) (hp : 1 ≤ p) :
    ∃ c, matmul_v0 a b = .ok c ∧ c.hasDims m n ∧
      ∀ i, i < m → ∀ j, j < n → c.entryD i j = cellSum a b p i j := by
  unfold matmul_v0
  rw [Matrix.shape_of_hasDims ha hm, ok_bind]
  simp only []
  rw [Matrix.shape_of_hasDims hb hp, ok_bind]
  simp only [ne_eq, not_true_eq_false, ↓reduceIte, ok_bind]
  refine Matrix.nested_fill _
    (fun i j c => c.write i j 0 >>= fun c =>
      forLoop (fun k c =>
        c.read i j >>= fun cij => a.read i k >>= fun aik => b.read k j >>= fun bkj =>
          c.write i j (cij + aik * bkj)) p c)
    (fun i j => (i, j)) (fun i j => cellSum a b p i j) m n m n
    (fun i c _ _ => rfl) ?_
    (fun i j hi hj => ⟨hi, hj⟩)
    (fun i j i' j' _ _ _ _ e => by
      simp only [Prod.mk.injEq] at e
      exact e)
    _ (Matrix.ctorMNV_hasDims m n 0)
  intro i j c hi hj hc
  have hi' : i < c.m_data.length := hc.1 ▸ hi
  show (c.write i j 0 >>= fun c =>
      forLoop (fun k c =>
        c.read i j >>= fun cij => a.read i k >>= fun aik => b.read k j >>= fun bkj =>
          c.write i j (cij + aik * bkj)) p c) = .ok (c.upd i j (cellSum a b p i j))
  rw [Matrix.write_of_hasDims hc hi hj, ok_bind]
  obtain ⟨c', hrun, hc'⟩ := forLoop_inv
    (fun k c => c.read i j >>= fun cij => a.read i k >>= fun aik => b.read k j >>=
      fun bkj => c.write i j (cij + aik * bkj))
    (fun k c' => c' = c.upd i j (accumulate 0 (fun k => a.entryD i k * b.entryD k j) k))
    p (c.upd i j 0) rfl (by
      intro k c' hk hc'
      subst hc'
      have hu := Matrix.upd_hasDims hc hi j
        (accumulate 0 (fun k => a.entryD i k * b.entryD k j) k)
      refine ⟨_, ?_, rfl⟩
      simp only []
      rw [Matrix.read_of_hasDims hu hi hj, ok_bind, Matrix.read_of_hasDims ha hi hk, ok_bind,
        Matrix.read_of_hasDims hb hk hj, ok_bind, Matrix.write_of_hasDims hu hi hj,
        Matrix.upd_upd hi', Matrix.entryD_upd hc hi hj]
      simp [accumulate])
  rw [hrun, hc']
  rfl

/-- What `operator*` computes on rectangular operands when the left operand has no more
columns than the right operand has rows. -/
theorem operator_mul_spec {α : Type} [Zero α] [Add α] [Mul α] {a b : Matrix α}
    {m1 n1 m2 n2 : Nat} (ha : a.hasDims m1 n1) (hb : b.hasDims m2 n2) (hm1 : 1 ≤ m1)
    (hm2 : 1 ≤ m2) (hle : n1 ≤ m2) :
    ∃ c, a.operator_mul b = .ok c ∧ c.hasDims m1 n2 ∧
      ∀ i, i < m1 → ∀ j, j < n2 → c.entryD i j = cellSum a b n1 i j := by
  obtain ⟨T, hT, hTd, hTe⟩ := Matrix.transpose_spec hb hm2
  unfold Matrix.operator_mul
  rw [Matrix.shape_of_hasDims ha hm1, ok_bind]
  simp only []
  rw [Matrix.shape_of_hasDims hb hm2, ok_bind]
  simp only []
  rw [hT, ok_bind]
  refine Matrix.nested_fill _
    (fun i j prod => T.operator_idx j >>= fun col =>
      inner_product (a.m_data.getD i []) col 0 >>= fun v => prod.write i j v)
    (fun i j => (i, j)) (fun i j => cellSum a b n1 i j) m1 n2 m1 n2
    ?_ ?_
    (fun i j hi hj => ⟨hi, hj⟩)
    (fun i j i' j' _ _ _ _ e => by
      simp only [Prod.mk.injEq] at e
      exact e)
    _ (Matrix.ctorMN_hasDims m1 n2)
  · intro i c hi _
    simp only []
    rw [Matrix.operator_idx_of_lt a (ha.1 ▸ hi), ok_bind]
  · intro i j c hi hj hc
    simp only []
    have hrow : (a.m_data.getD i []).length = n1 := Matrix.row_length_of_hasDims ha hi
    have hcol : (T.m_data.getD j []).length = m2 := Matrix.row_length_of_hasDims hTd hj
    rw [Matrix.operator_idx_of_lt T (hTd.1 ▸ hj), ok_bind,
      inner_product_eq _ _ _ (by rw [hrow, hcol]; exact hle), ok_bind,
      Matrix.write_of_hasDims hc hi hj, hrow]
    congr 2
    apply accumulate_congr
    intro k hk
    show a.entryD i k * T.entryD j k = a.entryD i k * b.entryD k j
    rw [hTe k (Nat.lt_of_lt_of_le hk hle) j hj]

theorem identity_hasDims (n : Nat) : (identity n).hasDims n n := by
  refine ⟨by simp [identity], ?_⟩
  intro row hrow
  simp only [identity, List.mem_map] at hrow
  obtain ⟨i, _, rfl⟩ := hrow
  simp

theorem identity_entryD {n i j : Nat} (hi : i < n) (hj : j < n) :
    (identity n).entryD i j = if i = j then 1 else 0 := by
  simp [identity, Matrix.entryD, List.getD_eq_getElem?_getD, List.getElem?_range, hi, hj]

theorem accumulate_mul_delta (x : Nat → Int) (j n : Nat) :
    accumulate 0 (fun k => x k * (if k = j then 1 else 0)) n = if j < n then x j else 0 := by
  induction n with
  | zero => rfl
  | succ n ih =>
    show accumulate 0 (fun k => x k * (if k = j then 1 else 0)) n
      + x n * (if n = j then 1 else 0) = _
    rw [ih]
    by_cases h1 : n = j
    · subst h1
      simp
    · by_cases h2 : j < n
      · simp [h1, h2, Nat.lt_succ_of_lt h2]
      · have h3 : ¬ j < n + 1 := by omega
        simp [h1, h2, h3]

theorem accumulate_delta_mul (x : Nat → Int) (i n : Nat) :
    accumulate 0 (fun k => (if i = k then 1 else 0) * x k) n = if i < n then x i else 0 := by
  induction n with
  | zero => rfl
  | succ n ih =>
    show accumulate 0 (fun k => (if i = k then 1 else 0) * x k) n
      + (if i = n then 1 else 0) * x n = _
    rw [ih]
    by_cases h1 : i = n
    · subst h1
      simp
    · by_cases h2 : i < n
      · simp [h1, h2, Nat.lt_succ_of_lt h2]
      · have h3 : ¬ i < n + 1 := by omega
        simp [h1, h2, h3]

theorem cellSum_identity_right {A : Matrix Int} {w i j : Nat} (hj : j < w) :
    cellSum A (identity w) w i j = A.entryD i j := by
  unfold cellSum
  rw [accumulate_congr 0 _ (fun k => A.entryD i k * (if k = j then 1 else 0)) w
    (fun k hk => by rw [identity_entryD hk hj]), accumulate_mul_delta, if_pos hj]

theorem cellSum_identity_left {A : Matrix Int} {h i j : Nat} (hi : i < h) :
    cellSum (identity h) A h i j = A.entryD i j := by
  unfold cellSum
  rw [accumulate_congr 0 _ (fun k => (if i = k then 1 else 0) * A.entryD k j) h
    (fun k hk => by rw [identity_entryD hi hk]), accumulate_delta_mul, if_pos hi]

/-! ## The claims -/

/-- Reading line 16 of `matmul.h` as `b.shape()`, as the definition of `matmul_v0` above
does: for rectangular `A` (`m × p`) and `B` (`p × n`) with `m ≥ 1` and `p ≥ 1`, `matmul_v0`
and `operator*` return the same `m × n` matrix. -/
theorem matmul_v0_eq_operator_mul {α : Type} [Zero α] [Add α] [Mul α]
    (A B : Matrix α) (m p n : Nat) (hA : A.hasDims m p) (hB : B.hasDims p n)
    (hm : 1 ≤ m) (hp : 1 ≤ p) :
    ∃ C, matmul_v0 A B = .ok C ∧ A.operator_mul B = .ok C ∧ C.hasDims m n := by
  obtain ⟨C, hC, hCd, hCe⟩ := matmul_v0_spec hA hB hm hp
  obtain ⟨D, hD, hDd, hDe⟩ := operator_mul_spec hA hB hm hp (Nat.le_refl p)
  refine ⟨C, hC, ?_, hCd⟩
  rw [hD, Matrix.ext_of_entryD hDd hCd (fun i hi j hj => by rw [hDe i hi j hj, hCe i hi j hj])]

/-- C1 (the `operator*` side): for rectangular `A` (`m × p`) and `B` (`p × n`) with `m ≥ 1`
and `p ≥ 1`, over any element type with `0`, `+` and `*` and no algebraic law, `A * B`
succeeds and returns an `m × n` matrix whose cell `(i, j)` reads back as the left-to-right
accumulation `0 + A[i][0]*B[0][j] + ...`.  The function `matmul_v0` as it stands in
`matmul.h` has no instantiation to compare it with: its line 16 binds `b.width()`, a
`size_t`, to `[s, n]`. -/
theorem C1_operator_mul_accumulates {α : Type} [Zero α] [Add α] [Mul α]
    (A B : Matrix α) (m p n : Nat) (hA : A.hasDims m p) (hB : B.hasDims p n)
    (hm : 1 ≤ m) (hp : 1 ≤ p) :
    ∃ C, A.operator_mul B = .ok C ∧ C.hasDims m n ∧
      ∀ i, i < m → ∀ j, j < n → C.read i j = .ok (cellSum A B p i j) := by
  obtain ⟨C, hC, hCd, hCe⟩ := operator_mul_spec hA hB hm hp (Nat.le_refl p)
  exact ⟨C, hC, hCd, fun i hi j hj => by
    rw [Matrix.read_of_hasDims hCd hi hj, hCe i hi j hj]⟩

theorem C1_witness :
    ∃ C, Matrix.operator_mul (⟨[[1, 2, 3], [4, 5, 6]]⟩ : Matrix Int)
        ⟨[[1, 0], [0, 1], [2, 2]]⟩ = .ok C ∧ C.hasDims 2 2 ∧
      ∀ i, i < 2 → ∀ j, j < 2 → C.read i j =
        .ok (cellSum (⟨[[1, 2, 3], [4, 5, 6]]⟩ : Matrix Int) ⟨[[1, 0], [0, 1], [2, 2]]⟩ 3 i j) :=
  C1_operator_mul_accumulates _ _ 2 3 2 (by decide) (by decide) (by decide) (by decide)

/-- C2: for rectangular `A` (`m × p`) and `B` (`p × n`) with `m ≥ 1` and `p ≥ 1`,
`matmul_v0 A B` returns a matrix `C` whose cell `(i, j)`, for `i < m` and `j < n`, reads
back as `0 + A[i][0]*B[0][j] + ... + A[i][p-1]*B[p-1][j]` accumulated in increasing `k`. -/
theorem C2_matmul_v0_cell_sum {α : Type} [Zero α] [Add α] [Mul α]
    (A B : Matrix α) (m p n : Nat) (hA : A.hasDims m p) (hB : B.hasDims p n)
    (hm : 1 ≤ m) (hp : 1 ≤ p) :
    ∃ C, matmul_v0 A B = .ok C ∧
      ∀ i, i < m → ∀ j, j < n → C.read i j = .ok (cellSum A B p i j) := by
  obtain ⟨C, hC, hCd, hCe⟩ := matmul_v0_spec hA hB hm hp
  exact ⟨C, hC, fun i hi j hj => by rw [Matrix.read_of_hasDims hCd hi hj, hCe i hi j hj]⟩

theorem C2_witness :
    ∃ C, matmul_v0 (⟨[[1, 2, 3], [4, 5, 6]]⟩ : Matrix Int) ⟨[[1, 0], [0, 1], [2, 2]]⟩ = .ok C ∧
      ∀ i, i < 2 → ∀ j, j < 2 → C.read i j =
        .ok (cellSum (⟨[[1, 2, 3], [4, 5, 6]]⟩ : Matrix Int) ⟨[[1, 0], [0, 1], [2, 2]]⟩ 3 i j) :=
  C2_matmul_v0_cell_sum _ _ 2 3 2 (by decide) (by decide) (by decide) (by decide)

/-- C3 (as stated, refuted): `Matrix(0, 2)` times a `2 × 2` matrix, and `Matrix(2, 0)` times
`Matrix(0, 3)`, are compatible pairs (`0 × 2` by `2 × 2`, `2 × 0` by `0 × 3`), yet `A * B`
returns no matrix: `shape()` calls `front()` on an empty row vector. -/
theorem C3_counterexample :
    (Matrix.ctorMN 0 2 : Matrix Int).hasDims 0 2 ∧
    Matrix.hasDims (⟨[[1, 2], [3, 4]]⟩ : Matrix Int) 2 2 ∧
    Matrix.operator_mul (Matrix.ctorMN 0 2 : Matrix Int) ⟨[[1, 2], [3, 4]]⟩
      = .error .emptyFront ∧
    (Matrix.ctorMN 2 0 : Matrix Int).hasDims 2 0 ∧
    (Matrix.ctorMN 0 3 : Matrix Int).hasDims 0 3 ∧
    Matrix.operator_mul (Matrix.ctorMN 2 0 : Matrix Int) (Matrix.ctorMN 0 3)
      = .error .emptyFront :=
  ⟨by decide, by decide, rfl, by decide, by decide, rfl⟩

/-- C3 (amended): for every compatible pair of rectangular operands `A` (`m × p`) and `B`
(`p × n`) with `m ≥ 1` and `p ≥ 1`, `A * B` returns a matrix with exactly `m` rows of
exactly `n` elements each, whose `shape()` is `(height(A), width(B))`. -/
theorem C3_operator_mul_shape {α : Type} [Zero α] [Add α] [Mul α]
    (A B : Matrix α) (m p n : Nat) (hA : A.hasDims m p) (hB : B.hasDims p n)
    (hm : 1 ≤ m) (hp : 1 ≤ p) :
    B.width = .ok n ∧
    ∃ C, A.operator_mul B = .ok C ∧ C.hasDims m n ∧ C.shape = .ok (A.height, n) := by
  have hh : A.height = m := hA.1
  obtain ⟨D, hD, hDd, _⟩ := operator_mul_spec hA hB hm hp (Nat.le_refl p)
  refine ⟨?_, ⟨D, hD, hDd, ?_⟩⟩
  · have hsB := Matrix.shape_of_hasDims hB hp
    cases B with
    | mk d =>
    cases d with
    | nil => simp [Matrix.shape, Matrix.width] at hsB
    | cons row rest =>
      simp only [Matrix.shape, Matrix.width, ok_bind, pure_eq_ok, Except.ok.injEq,
        Prod.mk.injEq] at hsB
      simp only [Matrix.width, hsB.2]
  · rw [hh]
    exact Matrix.shape_of_hasDims hDd hm

theorem C3_witness :
    Matrix.width (⟨[[1, 0, 5], [0, 1, 7]]⟩ : Matrix Int) = .ok 3 ∧
    ∃ C, Matrix.operator_mul (⟨[[1, 2], [3, 4], [5, 6]]⟩ : Matrix Int)
        ⟨[[1, 0, 5], [0, 1, 7]]⟩ = .ok C ∧
      C.hasDims 3 3 ∧
      C.shape = .ok (Matrix.height (⟨[[1, 2], [3, 4], [5, 6]]⟩ : Matrix Int), 3) :=
  C3_operator_mul_shape _ _ 3 2 3 (by decide) (by decide) (by decide) (by decide)

/-- C4 (as stated, refuted): on `A` of shape `2 × 3` and `B` of shape `2 × 2`, `A * B`
reports nothing: `std::inner_product` reads past the end of a row of the transposed right
operand; on `A` of shape `2 × 1` and `B` of shape `2 × 2`, `A * B` returns a matrix. -/
theorem C4_counterexample :
    Matrix.operator_mul (⟨[[1, 2, 3], [4, 5, 6]]⟩ : Matrix Int) ⟨[[1, 2], [3, 4]]⟩
      = .error .outOfRange ∧
    Fault.outOfRange.kind = .undefinedBehaviour ∧
    Matrix.operator_mul (⟨[[1], [3]]⟩ : Matrix Int) ⟨[[5, 6], [7, 8]]⟩
      = .ok ⟨[[5, 6], [15, 18]]⟩ :=
  ⟨rfl, rfl, rfl⟩

/-- C4 (amended): whenever `shape()` is defined on both operands and the inner dimensions
disagree, `matmul_v0`, reading its line 16 as taking `B`'s shape, fails its assertion
`p == s`: the process aborts and no matrix is returned. -/
theorem C4_matmul_v0_asserts_on_mismatch {α : Type} [Zero α] [Add α] [Mul α]
    (A B : Matrix α) (m p s n : Nat) (hsA : A.shape = .ok (m, p))
    (hsB : B.shape = .ok (s, n)) (hne : p ≠ s) :
    matmul_v0 A B = .error .assertFailed ∧ Fault.assertFailed.kind = .abort := by
  refine ⟨?_, rfl⟩
  unfold matmul_v0
  rw [hsA, ok_bind]
  simp only []
  rw [hsB, ok_bind]
  simp only [ne_eq, hne, not_false_eq_true, ↓reduceIte]
  rfl

theorem C4_witness :
    matmul_v0 (⟨[[1, 2, 3], [4, 5, 6]]⟩ : Matrix Int) ⟨[[1, 2], [3, 4]]⟩
      = .error .assertFailed ∧ Fault.assertFailed.kind = .abort :=
  C4_matmul_v0_asserts_on_mismatch _ _ 2 3 2 2 rfl rfl (by decide)

/-- C5 (as stated, refuted): `Matrix(0, 3)` is rectangular with zero rows of three elements,
yet `transpose` returns no matrix on it: `shape()` calls `front()` on an empty row vector. -/
theorem C5_counterexample :
    (Matrix.ctorMN 0 3 : Matrix Int).hasDims 0 3 ∧
    (Matrix.ctorMN 0 3 : Matrix Int).transpose = .error .emptyFront :=
  ⟨by decide, rfl⟩

/-- C5 (amended): for every rectangular `A` of shape `h × w` with `h ≥ 1`, `transpose(A)`
succeeds and returns a matrix with `w` rows of length `h` in which `[j][i]` reads back what
`A[i][j]` reads, for all `i < h` and `j < w`; and the transpose of `[[1,2,3],[4,5,6]]` is
`[[1,4],[2,5],[3,6]]`. -/
theorem C5_transpose_swaps_indices :
    (∀ (α : Type) [Zero α] (A : Matrix α) (h w : Nat), A.hasDims h w → 1 ≤ h →
      ∃ T, A.transpose = .ok T ∧ T.hasDims w h ∧
        ∀ i, i < h → ∀ j, j < w → ∃ x, A.read i j = .ok x ∧ T.read j i = .ok x) ∧
    (Matrix.ctorInit ([[1, 2, 3], [4, 5, 6]] : List (List Int)) >>= Matrix.transpose)
      = .ok ⟨[[1, 4], [2, 5], [3, 6]]⟩ := by
  refine ⟨?_, rfl⟩
  intro α _ A h w hA hh
  obtain ⟨T, hT, hTd, hTe⟩ := Matrix.transpose_spec hA hh
  refine ⟨T, hT, hTd, fun i hi j hj => ⟨A.entryD i j, Matrix.read_of_hasDims hA hi hj, ?_⟩⟩
  rw [Matrix.read_of_hasDims hTd hj hi, hTe i hi j hj]

theorem C5_witness :
    ∃ T, Matrix.transpose (⟨[[1, 2, 3], [4, 5, 6]]⟩ : Matrix Int) = .ok T ∧ T.hasDims 3 2 ∧
      ∀ i, i < 2 → ∀ j, j < 3 → ∃ x,
        Matrix.read (⟨[[1, 2, 3], [4, 5, 6]]⟩ : Matrix Int) i j = .ok x ∧ T.read j i = .ok x :=
  C5_transpose_swaps_indices.1 Int ⟨[[1, 2, 3], [4, 5, 6]]⟩ 2 3 (by decide) (by decide)

/-- C6 (as stated, refuted): transposing twice fails on the default-constructed matrix
(zero rows), on `Matrix(0, 3)`, and on `Matrix(2, 0)` (two rows of zero elements): each
time a `front()` of an empty row vector is reached. -/
theorem C6_counterexample :
    ((Matrix.ctor0 : Matrix Int).transpose >>= Matrix.transpose) = .error .emptyFront ∧
    ((Matrix.ctorMN 0 3 : Matrix Int).transpose >>= Matrix.transpose) = .error .emptyFront ∧
    ((Matrix.ctorMN 2 0 : Matrix Int).transpose >>= Matrix.transpose) = .error .emptyFront :=
  ⟨rfl, rfl, rfl⟩

/-- C6 (amended): for every rectangular `A` with at least one row and at least one column,
`transpose(transpose(A))` succeeds and equals `A`. -/
theorem C6_transpose_involutive {α : Type} [Zero α] (A : Matrix α) (h w : Nat)
    (hA : A.hasDims h w) (hh : 1 ≤ h) (hw : 1 ≤ w) :
    (A.transpose >>= Matrix.transpose) = .ok A := by
  obtain ⟨T, hT, hTd, hTe⟩ := Matrix.transpose_spec hA hh
  obtain ⟨U, hU, hUd, hUe⟩ := Matrix.transpose_spec hTd hw
  rw [hT, ok_bind, hU]
  congr 1
  exact Matrix.ext_of_entryD hUd hA (fun i hi j hj => by rw [hUe j hj i hi, hTe i hi j hj])

theorem C6_witness :
    (Matrix.transpose (⟨[[1, 2, 3], [4, 5, 6]]⟩ : Matrix Int) >>= Matrix.transpose)
      = .ok ⟨[[1, 2, 3], [4, 5, 6]]⟩ :=
  C6_transpose_involutive _ 2 3 (by decide) (by decide) (by decide)

/-- C7 (the `operator*` side): for every rectangular integer matrix `A` of shape `h × w`
with `h ≥ 1` and `w ≥ 1`, `A * I_w` and `I_h * A` both return `A`.  The function
`matmul_v0` as it stands in `matmul.h` has no instantiation: its line 16 binds
`b.width()`, a `size_t`, to `[s, n]`. -/
theorem C7_operator_mul_identity (A : Matrix Int) (h w : Nat) (hA : A.hasDims h w)
    (hh : 1 ≤ h) (hw : 1 ≤ w) :
    A.operator_mul (identity w) = .ok A ∧ (identity h).operator_mul A = .ok A := by
  obtain ⟨P3, e3, d3, c3⟩ := operator_mul_spec hA (identity_hasDims w) hh hw (Nat.le_refl w)
  obtain ⟨P4, e4, d4, c4⟩ := operator_mul_spec (identity_hasDims h) hA hh hh (Nat.le_refl h)
  refine ⟨?_, ?_⟩
  · rw [e3, Matrix.ext_of_entryD d3 hA
      (fun i hi j hj => by rw [c3 i hi j hj, cellSum_identity_right hj])]
  · rw [e4, Matrix.ext_of_entryD d4 hA
      (fun i hi j hj => by rw [c4 i hi j hj, cellSum_identity_left hi])]

theorem C7_witness :
    Matrix.operator_mul (⟨[[1, 2, 3], [4, 5, 6]]⟩ : Matrix Int) (identity 3)
      = .ok ⟨[[1, 2, 3], [4, 5, 6]]⟩ ∧
    Matrix.operator_mul (identity 2) (⟨[[1, 2, 3], [4, 5, 6]]⟩ : Matrix Int)
      = .ok ⟨[[1, 2, 3], [4, 5, 6]]⟩ :=
  C7_operator_mul_identity _ 2 3 (by decide) (by decide) (by decide)

/-- C8: for every matrix `M` and value `v`, `fill(v)` (a total operation) keeps the number
of rows and the length of every row, makes every stored element equal to `v`, and every
read that succeeded before the fill succeeds after it and returns `v`. -/
theorem C8_fill_overwrites_every_element {α : Type} (M : Matrix α) (v : α) :
    (M.fill v).height = M.height ∧
    (M.fill v).m_data.map List.length = M.m_data.map List.length ∧
    (∀ row ∈ (M.fill v).m_data, ∀ x ∈ row, x = v) ∧
    (∀ i j x, M.read i j = .ok x → (M.fill v).read i j = .ok v) ∧
    (∀ i j x, (M.fill v).read i j = .ok x → x = v) := by
  have hread : ∀ i j, (M.fill v).read i j = (M.read i j >>= fun _ => .ok v) := by
    intro i j
    simp only [Matrix.read, Matrix.operator_idx, vecAt, Matrix.fill, List.getElem?_map]
    cases M.m_data[i]? with
    | none => rfl
    | some row =>
      simp only [Option.map_some', ok_bind, List.getElem?_map]
      cases row[j]? with
      | none => rfl
      | some y => rfl
  refine ⟨by simp [Matrix.fill, Matrix.height], ?_, ?_, ?_, ?_⟩
  · simp [Matrix.fill, List.map_map, Function.comp_def]
  · intro row hrow x hx
    simp only [Matrix.fill, List.mem_map] at hrow
    obtain ⟨r, _, rfl⟩ := hrow
    simp only [List.mem_map] at hx
    obtain ⟨_, _, rfl⟩ := hx
    rfl
  · intro i j x hx
    rw [hread, hx, ok_bind]
  · intro i j x hx
    rw [hread] at hx
    cases hM : M.read i j with
    | error e => rw [hM] at hx; cases hx
    | ok y =>
      rw [hM, ok_bind] at hx
      cases hx
      rfl

/-- C9 (the `operator*` side): for `A = [[1,2],[3,4]]` and `B = [[5,6],[7,8]]` built with the
nested-literal constructor, `A * B` returns exactly `[[19,22],[43,50]]`.  The function
`matmul_v0` as it stands in `matmul.h` has no instantiation: its line 16 binds
`b.width()`, a `size_t`, to `[s, n]`. -/
theorem C9_operator_mul_product :
    (Matrix.ctorInit ([[1, 2], [3, 4]] : List (List Int)) >>= fun A =>
      Matrix.ctorInit [[5, 6], [7, 8]] >>= fun B => A.operator_mul B)
      = .ok ⟨[[19, 22], [43, 50]]⟩ :=
  rfl

/-- C10: for every matrix `M`, `shape(M)` fails exactly when `height(M) = 0`; when
`height(M) ≥ 1` it returns (number of rows, length of the first row); `height(M)` is the
total row count and cannot fail. -/
theorem C10_shape_fails_iff_no_rows {α : Type} (M : Matrix α) :
    ((∃ e, M.shape = .error e) ↔ M.height = 0) ∧
    (1 ≤ M.height →
      ∃ row, M.m_data.head? = some row ∧ M.shape = .ok (M.m_data.length, row.length)) ∧
    M.height = M.m_data.length := by
  cases M with
  | mk d =>
  cases d with
  | nil =>
    refine ⟨⟨fun _ => rfl, fun _ => ⟨.emptyFront, rfl⟩⟩, ?_, rfl⟩
    intro h
    simp [Matrix.height] at h
  | cons row rest =>
    refine ⟨⟨?_, ?_⟩, fun _ => ⟨row, rfl, rfl⟩, rfl⟩
    · rintro ⟨e, he⟩
      simp [Matrix.shape, Matrix.width] at he
    · intro h
      simp [Matrix.height] at h

/-! ## Further facts: constructors, preservation of the dimensions, failing loops -/

theorem bind_eq_ok {β γ : Type} {x : Except Fault β} {f : β → Except Fault γ} {c : γ}
    (h : (x >>= f) = .ok c) : ∃ a, x = .ok a ∧ f a = .ok c := by
  cases x with
  | error e => cases h
  | ok a => exact ⟨a, rfl, h⟩

/-- The constructor written with its two loop bodies named. -/
theorem ctorInit_cons {α : Type} [Zero α] (first : List α) (rest : List (List α)) :
    Matrix.ctorInit (first :: rest) =
      ((first :: rest).foldlM copyRow
        ((Matrix.ctorMN (first :: rest).length first.length : Matrix α), 0)
        >>= fun r => pure r.1) := rfl

theorem entryD_ctorMN {α : Type} [Zero α] (m n a b : Nat) :
    (Matrix.ctorMN m n : Matrix α).entryD a b = 0 := by
  unfold Matrix.entryD Matrix.ctorMN
  simp only [List.getD_eq_getElem?_getD, List.getElem?_replicate]
  by_cases ha : a < m
  · by_cases hb : b < n
    · simp [ha, hb]
    · simp [ha, hb]
  · simp [ha]

theorem hasDims_rectangular {α : Type} {M : Matrix α} {m n : Nat} (h : M.hasDims m n) :
    M.rectangular :=
  fun r hr r' hr' => (h.2 r hr).trans (h.2 r' hr').symm

theorem forLoop_preserves {σ : Type} (body : Nat → σ → Except Fault σ) (P : σ → Prop)
    (hstep : ∀ i s s', P s → body i s = .ok s' → P s') :
    ∀ n s s', P s → forLoop body n s = .ok s' → P s' := by
  intro n
  induction n with
  | zero =>
    intro s s' hP h
    cases h
    exact hP
  | succ n ih =>
    intro s s' hP h
    obtain ⟨s1, h1, h2⟩ := bind_eq_ok h
    exact hstep n s1 s' (ih s s1 hP h1) h2

theorem forLoop_error {σ : Type} (body : Nat → σ → Except Fault σ) (e : Fault) (n : Nat)
    (hn : 1 ≤ n) (hbody : ∀ i s, i < n → body i s = .error e) (s : σ) :
    forLoop body n s = .error e := by
  induction n with
  | zero => omega
  | succ n ih =>
    show (forLoop body n s >>= body n) = _
    cases hrun : forLoop body n s with
    | error e' =>
      rcases Nat.eq_zero_or_pos n with h0 | hpos
      · subst h0
        cases hrun
      · rw [ih hpos (fun i s hi => hbody i s (Nat.lt_succ_of_lt hi))] at hrun
        cases hrun
        rfl
    | ok s1 => exact hbody n s1 (Nat.lt_succ_self n)

theorem write_of_col_ge {α : Type} {M : Matrix α} {m n i j : Nat} (h : M.hasDims m n)
    (hi : i < m) (hj : n ≤ j) (x : α) : M.write i j x = .error .outOfRange := by
  have hi' : i < M.m_data.length := h.1 ▸ hi
  have hj' : ¬ j < (M.m_data.getD i []).length := by
    rw [Matrix.row_length_of_hasDims h hi]
    omega
  unfold Matrix.write
  rw [Matrix.operator_idx_of_lt M hi', ok_bind]
  simp only [vecSet, if_neg hj', error_bind]

theorem write_preserves_hasDims {α : Type} {M M' : Matrix α} {m n i j : Nat} {x : α}
    (h : M.hasDims m n) (hw : M.write i j x = .ok M') : M'.hasDims m n := by
  by_cases hi : i < m
  · by_cases hj : j < n
    · rw [Matrix.write_of_hasDims h hi hj] at hw
      cases hw
      exact Matrix.upd_hasDims h hi j x
    · rw [write_of_col_ge h hi (Nat.le_of_not_lt hj)] at hw
      cases hw
  · have : M.operator_idx i = .error .outOfRange :=
      vecAt_of_ge _ _ (by rw [h.1]; omega)
    unfold Matrix.write at hw
    rw [this] at hw
    cases hw

/-- Whenever `transpose` returns, the matrix it returns has the swapped dimensions. -/
theorem transpose_ok_hasDims {α : Type} [Zero α] {M T : Matrix α}
    (h : M.transpose = .ok T) : ∃ m n, M.shape = .ok (m, n) ∧ T.hasDims n m := by
  unfold Matrix.transpose at h
  obtain ⟨⟨m, n⟩, hs, hrun⟩ := bind_eq_ok h
  refine ⟨m, n, hs, ?_⟩
  refine forLoop_preserves _ (fun t => t.hasDims n m) ?_ m _ T (Matrix.ctorMN_hasDims n m) hrun
  intro i t t' ht hbody
  refine forLoop_preserves _ (fun t => t.hasDims n m) ?_ n t t' ht hbody
  intro j u u' hu hstep
  obtain ⟨x, _, hw⟩ := bind_eq_ok hstep
  exact write_preserves_hasDims hu hw

/-- Whenever `matmul_v0` returns, both shapes were defined, the inner dimensions agreed and
the result has `m` rows of `n` elements. -/
theorem matmul_v0_ok_hasDims {α : Type} [Zero α] [Add α] [Mul α] {a b c : Matrix α}
    (h : matmul_v0 a b = .ok c) :
    ∃ m p n, a.shape = .ok (m, p) ∧ b.shape = .ok (p, n) ∧ c.hasDims m n := by
  unfold matmul_v0 at h
  obtain ⟨⟨m, p⟩, hsa, h1⟩ := bind_eq_ok h
  obtain ⟨⟨s, n⟩, hsb, h2⟩ := bind_eq_ok h1
  simp only [] at h2
  by_cases hps : p = s
  · subst hps
    refine ⟨m, p, n, hsa, hsb, ?_⟩
    simp only [ne_eq, not_true_eq_false, ↓reduceIte] at h2
    obtain ⟨_, _, hrun⟩ := bind_eq_ok h2
    refine forLoop_preserves _ (fun t => t.hasDims m n) ?_ m _ c
      (Matrix.ctorMNV_hasDims m n 0) hrun
    intro i t t' ht hbody
    refine forLoop_preserves _ (fun t => t.hasDims m n) ?_ n t t' ht hbody
    intro j u u' hu hstep
    obtain ⟨u0, hw0, hk⟩ := bind_eq_ok hstep
    refine forLoop_preserves _ (fun t => t.hasDims m n) ?_ p u0 u'
      (write_preserves_hasDims hu hw0) hk
    intro k v v' hv hkstep
    obtain ⟨_, _, r1⟩ := bind_eq_ok hkstep
    obtain ⟨_, _, r2⟩ := bind_eq_ok r1
    obtain ⟨_, _, r3⟩ := bind_eq_ok r2
    exact write_preserves_hasDims hv r3
  · simp only [ne_eq, hps, not_false_eq_true, ↓reduceIte] at h2
    cases h2

/-- Whenever `operator*` returns, both shapes were defined and the result has `m1` rows of
`n2` elements. -/
theorem operator_mul_ok_hasDims {α : Type} [Zero α] [Add α] [Mul α] {a b c : Matrix α}
    (h : a.operator_mul b = .ok c) :
    ∃ m1 n1 m2 n2, a.shape = .ok (m1, n1) ∧ b.shape = .ok (m2, n2) ∧ c.hasDims m1 n2 := by
  unfold Matrix.operator_mul at h
  obtain ⟨⟨m1, n1⟩, hsa, h1⟩ := bind_eq_ok h
  obtain ⟨⟨m2, n2⟩, hsb, h2⟩ := bind_eq_ok h1
  obtain ⟨T, _, hrun⟩ := bind_eq_ok h2
  refine ⟨m1, n1, m2, n2, hsa, hsb, ?_⟩
  refine forLoop_preserves _ (fun t => t.hasDims m1 n2) ?_ m1 _ c
    (Matrix.ctorMN_hasDims m1 n2) hrun
  intro i t t' ht hbody
  obtain ⟨row, _, hj⟩ := bind_eq_ok hbody
  refine forLoop_preserves _ (fun t => t.hasDims m1 n2) ?_ n2 t t' ht hj
  intro j u u' hu hstep
  obtain ⟨_, _, r1⟩ := bind_eq_ok hstep
  obtain ⟨_, _, r2⟩ := bind_eq_ok r1
  exact write_preserves_hasDims hu r2

/-- When the left operand has more columns than the right operand has rows and there is at
least one output cell, `operator*` reads past the end of a row of the transposed operand. -/
theorem operator_mul_overrun {α : Type} [Zero α] [Add α] [Mul α] {a b : Matrix α}
    {m1 n1 m2 n2 : Nat} (ha : a.hasDims m1 n1) (hb : b.hasDims m2 n2) (hm1 : 1 ≤ m1)
    (hm2 : 1 ≤ m2) (hn2 : 1 ≤ n2) (hgt : m2 < n1) :
    a.operator_mul b = .error .outOfRange := by
  obtain ⟨T, hT, hTd, _⟩ := Matrix.transpose_spec hb hm2
  unfold Matrix.operator_mul
  rw [Matrix.shape_of_hasDims ha hm1, ok_bind]
  simp only []
  rw [Matrix.shape_of_hasDims hb hm2, ok_bind]
  simp only []
  rw [hT, ok_bind]
  apply forLoop_error _ _ _ hm1
  intro i prod hi
  rw [Matrix.operator_idx_of_lt a (ha.1 ▸ hi), ok_bind]
  apply forLoop_error _ _ _ hn2
  intro j prod' hj
  have hrow : (a.m_data.getD i []).length = n1 := Matrix.row_length_of_hasDims ha hi
  have hcol : (T.m_data.getD j []).length = m2 := Matrix.row_length_of_hasDims hTd hj
  rw [Matrix.operator_idx_of_lt T (hTd.1 ▸ hj), ok_bind,
    inner_product_short _ _ _ (by rw [hrow, hcol]; exact hgt), error_bind]

theorem foldlM_preserves {σ β : Type} (f : σ → β → Except Fault σ) (P : σ → Prop)
    (hstep : ∀ s x s', P s → f s x = .ok s' → P s') :
    ∀ (l : List β) (s s' : σ), P s → l.foldlM f s = .ok s' → P s' := by
  intro l
  induction l with
  | nil =>
    intro s s' hP h
    cases h
    exact hP
  | cons x xs ih =>
    intro s s' hP h
    rw [List.foldlM_cons] at h
    obtain ⟨s1, h1, h2⟩ := bind_eq_ok h
    exact ih s1 s' (hstep s x s1 hP h1) h2

/-- Copying `els` into row `i` from column `j0` on, when they fit: the cells
`j0 .. j0 + els.length - 1` of row `i` become `els`, every other cell is unchanged. -/
theorem copyEl_fold_ok {α : Type} [Zero α] (i R C : Nat) (hi : i < R) :
    ∀ (els : List α) (M : Matrix α) (j0 : Nat), M.hasDims R C → j0 + els.length ≤ C →
      ∃ M', els.foldlM (copyEl i) (M, j0) = .ok (M', j0 + els.length) ∧ M'.hasDims R C ∧
        ∀ a b, M'.entryD a b =
          if a = i ∧ j0 ≤ b ∧ b < j0 + els.length then els.getD (b - j0) 0
          else M.entryD a b := by
  intro els
  induction els with
  | nil =>
    intro M j0 hM _
    refine ⟨M, rfl, hM, fun a b => ?_⟩
    rw [if_neg]
    simp only [List.length_nil, Nat.add_zero]
    omega
  | cons x xs ih =>
    intro M j0 hM hlen
    simp only [List.length_cons] at hlen
    have hj0 : j0 < C := by omega
    obtain ⟨M', hrun, hd, hent⟩ := ih (M.upd i j0 x) (j0 + 1)
      (Matrix.upd_hasDims hM hi j0 x) (by omega)
    refine ⟨M', ?_, hd, fun a b => ?_⟩
    · rw [List.foldlM_cons]
      show (M.write i j0 x >>= fun next => pure (next, j0 + 1)) >>= _ = _
      rw [Matrix.write_of_hasDims hM hi hj0, ok_bind, pure_eq_ok, ok_bind, hrun,
        List.length_cons]
      congr 2
      omega
    · rw [hent a b, Matrix.entryD_upd hM hi hj0]
      simp only [List.length_cons]
      by_cases ha : a = i
      · rcases Nat.lt_trichotomy b j0 with hlt | heq | hgt
        · rw [if_neg (by omega), if_neg (by omega), if_neg (by omega)]
        · subst heq
          rw [if_neg (by omega), if_pos ⟨ha, rfl⟩, if_pos ⟨ha, Nat.le_refl _, by omega⟩]
          simp
        · obtain ⟨d, rfl⟩ : ∃ d, b = j0 + 1 + d := ⟨b - (j0 + 1), by omega⟩
          by_cases hb : j0 + 1 + d < j0 + 1 + xs.length
          · rw [if_pos ⟨ha, by omega, hb⟩, if_pos ⟨ha, by omega, by omega⟩]
            have e1 : j0 + 1 + d - (j0 + 1) = d := by omega
            have e2 : j0 + 1 + d - j0 = d + 1 := by omega
            rw [e1, e2, List.getD_cons_succ]
          · rw [if_neg (by omega), if_neg (by omega), if_neg (by omega)]
      · rw [if_neg (fun h => ha h.1), if_neg (fun h => ha h.1), if_neg (fun h => ha h.1)]

/-- Copying `els` into row `i` from column `j0` on, when they do not fit: the write at
column `C` is past the end of the row. -/
theorem copyEl_fold_fail {α : Type} (i R C : Nat) (hi : i < R) :
    ∀ (els : List α) (M : Matrix α) (j0 : Nat), M.hasDims R C → j0 ≤ C →
      C < j0 + els.length → els.foldlM (copyEl i) (M, j0) = .error .outOfRange := by
  intro els
  induction els with
  | nil =>
    intro M j0 _ h1 h2
    simp only [List.length_nil, Nat.add_zero] at h2
    omega
  | cons x xs ih =>
    intro M j0 hM h1 h2
    simp only [List.length_cons] at h2
    rw [List.foldlM_cons]
    show (M.write i j0 x >>= fun next => pure (next, j0 + 1)) >>= _ = _
    by_cases hj0 : j0 < C
    · rw [Matrix.write_of_hasDims hM hi hj0, ok_bind, pure_eq_ok, ok_bind]
      exact ih _ _ (Matrix.upd_hasDims hM hi j0 x) hj0 (by omega)
    · rw [write_of_col_ge hM hi (Nat.le_of_not_lt hj0), error_bind, error_bind]

/-- Copying the literal rows `rows` into the matrix rows `i0, i0 + 1, ...` when none is
longer than a matrix row: each copied row overwrites the leading cells of its matrix row. -/
theorem copyRow_fold_ok {α : Type} [Zero α] (R C : Nat) :
    ∀ (rows : List (List α)) (M : Matrix α) (i0 : Nat), M.hasDims R C →
      i0 + rows.length ≤ R → (∀ r ∈ rows, r.length ≤ C) →
      ∃ M', rows.foldlM copyRow (M, i0) = .ok (M', i0 + rows.length) ∧ M'.hasDims R C ∧
        ∀ a b, M'.entryD a b =
          if i0 ≤ a ∧ a < i0 + rows.length ∧ b < (rows.getD (a - i0) []).length
          then (rows.getD (a - i0) []).getD b 0
          else M.entryD a b := by
  intro rows
  induction rows with
  | nil =>
    intro M i0 hM _ _
    refine ⟨M, rfl, hM, fun a b => ?_⟩
    rw [if_neg]
    simp only [List.length_nil, Nat.add_zero]
    omega
  | cons r rs ih =>
    intro M i0 hM hlen hrows
    simp only [List.length_cons] at hlen
    have hi0 : i0 < R := by omega
    have hr : 0 + r.length ≤ C := by
      have := hrows r (List.mem_cons_self _ _)
      omega
    obtain ⟨M1, hrun1, hd1, hent1⟩ := copyEl_fold_ok i0 R C hi0 r M 0 hM hr
    obtain ⟨M', hrun, hd, hent⟩ := ih M1 (i0 + 1) hd1 (by omega)
      (fun r' hr' => hrows r' (List.mem_cons_of_mem _ hr'))
    refine ⟨M', ?_, hd, fun a b => ?_⟩
    · rw [List.foldlM_cons]
      show (r.foldlM (copyEl i0) (M, 0) >>= fun res => pure (res.1, i0 + 1)) >>= _ = _
      rw [hrun1, ok_bind, pure_eq_ok, ok_bind, hrun, List.length_cons]
      congr 2
      omega
    · rw [hent a b, hent1 a b]
      simp only [List.length_cons, Nat.zero_le, Nat.zero_add, Nat.sub_zero, true_and]
      rcases Nat.lt_trichotomy a i0 with hlt | heq | hgt
      · rw [if_neg (by omega), if_neg (by omega), if_neg (by omega)]
      · subst heq
        rw [if_neg (by omega)]
        simp only [Nat.sub_self, List.getD_cons_zero, true_and, Nat.le_refl]
        by_cases hb : b < r.length
        · rw [if_pos hb, if_pos ⟨by omega, hb⟩]
        · rw [if_neg hb, if_neg (fun h => hb h.2)]
      · obtain ⟨d, rfl⟩ : ∃ d, a = i0 + 1 + d := ⟨a - (i0 + 1), by omega⟩
        have e1 : i0 + 1 + d - (i0 + 1) = d := by omega
        have e2 : i0 + 1 + d - i0 = d + 1 := by omega
        rw [e1, e2, List.getD_cons_succ]
        by_cases hc : d < rs.length ∧ b < (rs.getD d []).length
        · rw [if_pos ⟨by omega, by omega, hc.2⟩, if_pos ⟨by omega, by omega, hc.2⟩]
        · rw [if_neg (fun h => hc ⟨by omega, h.2.2⟩), if_neg (by omega),
            if_neg (fun h => hc ⟨by omega, h.2.2⟩)]

/-- Copying literal rows of which one is longer than a matrix row: the copy of the first
such row writes past the end of its matrix row. -/
theorem copyRow_fold_fail {α : Type} [Zero α] (R C : Nat) :
    ∀ (rows : List (List α)) (M : Matrix α) (i0 : Nat), M.hasDims R C →
      i0 + rows.length ≤ R → (∃ r ∈ rows, C < r.length) →
      rows.foldlM copyRow (M, i0) = .error .outOfRange := by
  intro rows
  induction rows with
  | nil =>
    intro M i0 _ _ h
    obtain ⟨r, hr, _⟩ := h
    cases hr
  | cons r rs ih =>
    intro M i0 hM hlen hex
    simp only [List.length_cons] at hlen
    have hi0 : i0 < R := by omega
    rw [List.foldlM_cons]
    show (r.foldlM (copyEl i0) (M, 0) >>= fun res => pure (res.1, i0 + 1)) >>= _ = _
    by_cases hr : C < r.length
    · rw [copyEl_fold_fail i0 R C hi0 r M 0 hM (Nat.zero_le _) (by omega), error_bind,
        error_bind]
    · obtain ⟨M1, hrun1, hd1, _⟩ := copyEl_fold_ok i0 R C hi0 r M 0 hM (by omega)
      rw [hrun1, ok_bind, pure_eq_ok, ok_bind]
      apply ih M1 (i0 + 1) hd1 (by omega)
      obtain ⟨r', hr', hlong⟩ := hex
      rcases List.mem_cons.mp hr' with rfl | hmem
      · exact absurd hlong hr
      · exact ⟨r', hmem, hlong⟩

theorem padRow_getD {α : Type} [Zero α] (n : Nat) (row : List α) (b : Nat) :
    (padRow n row).getD b 0 = row.getD b 0 := by
  unfold padRow
  simp only [List.getD_eq_getElem?_getD]
  by_cases hb : b < row.length
  · rw [List.getElem?_append_left hb]
  · rw [List.getElem?_append_right (Nat.le_of_not_lt hb), List.getElem?_replicate,
      List.getElem?_eq_none (Nat.le_of_not_lt hb)]
    by_cases h : b - row.length < n - row.length
    · simp [h]
    · simp [h]

/-- What the initializer-list constructor builds when no row is longer than the first: the
literal with every row padded with zeros to the first row's length. -/
theorem ctorInit_spec {α : Type} [Zero α] (first : List α) (rest : List (List α))
    (hrows : ∀ r ∈ rest, r.length ≤ first.length) :
    Matrix.ctorInit (first :: rest) = .ok ⟨(first :: rest).map (padRow first.length)⟩ := by
  have hall : ∀ r ∈ first :: rest, r.length ≤ first.length := by
    intro r hr
    rcases List.mem_cons.mp hr with rfl | hmem
    · exact Nat.le_refl _
    · exact hrows r hmem
  obtain ⟨M', hrun, hd, hent⟩ := copyRow_fold_ok (first :: rest).length first.length
    (first :: rest) (Matrix.ctorMN _ _) 0 (Matrix.ctorMN_hasDims _ _) (by omega) hall
  rw [ctorInit_cons, hrun, ok_bind, pure_eq_ok]
  congr 1
  have hpad : (Matrix.mk ((first :: rest).map (padRow first.length))).hasDims
      (first :: rest).length first.length := by
    refine ⟨by simp, ?_⟩
    intro row hrow
    obtain ⟨r, hr, rfl⟩ := List.mem_map.mp hrow
    have := hall r hr
    simp only [padRow, List.length_append, List.length_replicate]
    omega
  apply Matrix.ext_of_entryD hd hpad
  intro a ha b _
  rw [hent a b, entryD_ctorMN]
  have hrow : (Matrix.mk ((first :: rest).map (padRow first.length))).entryD a b
      = ((first :: rest).getD a []).getD b 0 := by
    unfold Matrix.entryD
    simp only [List.getD_eq_getElem?_getD, List.getElem?_map, List.getElem?_eq_getElem ha,
      Option.map_some', Option.getD_some]
    have := padRow_getD first.length (first :: rest)[a] b
    simpa only [List.getD_eq_getElem?_getD] using this
  rw [hrow]
  simp only [Nat.zero_le, Nat.zero_add, Nat.sub_zero, true_and]
  by_cases hc : a < (first :: rest).length ∧ b < ((first :: rest).getD a []).length
  · rw [if_pos hc]
  · rw [if_neg hc]
    have hb : ¬ b < ((first :: rest).getD a []).length := fun h => hc ⟨ha, h⟩
    rw [List.getD_eq_default _ _ (Nat.le_of_not_lt hb)]

/-- The initializer-list constructor overruns a matrix row when some literal row is longer
than the first. -/
theorem ctorInit_overrun {α : Type} [Zero α] (first : List α) (rest : List (List α))
    (hlong : ∃ r ∈ rest, first.length < r.length) :
    Matrix.ctorInit (first :: rest) = .error .outOfRange := by
  obtain ⟨r, hr, hlt⟩ := hlong
  rw [ctorInit_cons, copyRow_fold_fail (first :: rest).length first.length (first :: rest)
    (Matrix.ctorMN _ _) 0 (Matrix.ctorMN_hasDims _ _) (by omega)
    ⟨r, List.mem_cons_of_mem _ hr, hlt⟩, error_bind]

/-- Whenever the initializer-list constructor returns, the literal was not empty and the
matrix has as many rows as the literal, each as long as the literal's first row. -/
theorem ctorInit_ok_hasDims {α : Type} [Zero α] {init : List (List α)} {M : Matrix α}
    (h : Matrix.ctorInit init = .ok M) :
    ∃ first rest, init = first :: rest ∧ M.hasDims init.length first.length := by
  cases init with
  | nil => cases h
  | cons first rest =>
    refine ⟨first, rest, rfl, ?_⟩
    rw [ctorInit_cons] at h
    obtain ⟨st, hrun, hst⟩ := bind_eq_ok h
    cases hst
    refine foldlM_preserves copyRow
      (fun st => st.1.hasDims (first :: rest).length first.length) ?_ (first :: rest) _ st
      (Matrix.ctorMN_hasDims _ _) hrun
    intro s row s' hs hrow
    obtain ⟨r, hinner, hr⟩ := bind_eq_ok hrow
    cases hr
    refine foldlM_preserves (copyEl s.2)
      (fun st => st.1.hasDims (first :: rest).length first.length) ?_ row (s.1, 0) r hs
      hinner
    intro u x u' hu hx
    obtain ⟨next, hw, hn⟩ := bind_eq_ok hx
    cases hn
    exact write_preserves_hasDims hu hw

theorem accumulate_val (w : Nat) (x y : Nat → UWord w) (p : Nat) :
    (accumulate 0 (fun k => x k * y k) p).val =
      (∑ k ∈ Finset.range p, (x k).val * (y k).val) % 2 ^ w := by
  induction p with
  | zero => rfl
  | succ p ih =>
    show ((accumulate 0 (fun k => x k * y k) p).val + ((x p).val * (y p).val) % 2 ^ w) % 2 ^ w
      = _
    rw [ih, Finset.sum_range_succ, ← Nat.add_mod]

/-- Transposition reverses the cell sums over a commutative multiplication. -/
theorem cellSum_transpose {α : Type} [Zero α] [Add α] [Mul α]
    (hcomm : ∀ x y : α, x * y = y * x) {A B At Bt : Matrix α} {m p n i j : Nat}
    (hAt : ∀ i, i < m → ∀ k, k < p → At.entryD k i = A.entryD i k)
    (hBt : ∀ k, k < p → ∀ j, j < n → Bt.entryD j k = B.entryD k j)
    (hi : i < m) (hj : j < n) : cellSum Bt At p j i = cellSum A B p i j := by
  unfold cellSum
  apply accumulate_congr
  intro k hk
  rw [hAt i hi k hk, hBt k hk j hj, hcomm]

/-- Multiplication modulo `2 ^ w` commutes. -/
theorem UWord.mul_comm (w : Nat) (x y : UWord w) : x * y = y * x := by
  show UWord.mk ((x.val * y.val) % 2 ^ w) = UWord.mk ((y.val * x.val) % 2 ^ w)
  rw [Nat.mul_comm]

theorem rectangular_hasDims {α : Type} {M : Matrix α} (h : M.rectangular) :
    ∃ n, M.hasDims M.m_data.length n := by
  cases M with
  | mk d =>
  cases d with
  | nil => exact ⟨0, rfl, fun row hrow => by cases hrow⟩
  | cons r rs =>
    exact ⟨r.length, rfl, fun row hrow => h row hrow r (List.mem_cons_self _ _)⟩

/-! ## The claims, continued -/

/-- C11: for all `h`, `w`, `n` (zero included) and every value `v`, `Matrix(h, w, v)` has
exactly `h` rows of exactly `w` elements, all equal to `v`; `Matrix(h, w)` has the same
dimensions with every element zero; `Matrix(n)` is the `n × n` zero matrix. -/
theorem C11_sized_constructors {α : Type} [Zero α] (h w n : Nat) (v : α) :
    ((Matrix.ctorMNV h w v).hasDims h w ∧
      ∀ row ∈ (Matrix.ctorMNV h w v).m_data, ∀ x ∈ row, x = v) ∧
    ((Matrix.ctorMN h w : Matrix α).hasDims h w ∧
      ∀ row ∈ (Matrix.ctorMN h w : Matrix α).m_data, ∀ x ∈ row, x = 0) ∧
    ((Matrix.ctorN n : Matrix α).hasDims n n ∧
      ∀ row ∈ (Matrix.ctorN n : Matrix α).m_data, ∀ x ∈ row, x = 0) := by
  refine ⟨⟨Matrix.ctorMNV_hasDims h w v, ?_⟩, ⟨Matrix.ctorMN_hasDims h w, ?_⟩,
    ⟨Matrix.ctorMN_hasDims n n, ?_⟩⟩
  · intro row hrow x hx
    simp only [Matrix.ctorMNV, Matrix.fill, List.mem_map] at hrow
    obtain ⟨r, _, rfl⟩ := hrow
    obtain ⟨_, _, rfl⟩ := List.mem_map.mp hx
    rfl
  · intro row hrow x hx
    simp only [Matrix.ctorMN] at hrow
    rw [List.eq_of_mem_replicate hrow] at hx
    exact List.eq_of_mem_replicate hx
  · intro row hrow x hx
    simp only [Matrix.ctorN] at hrow
    rw [List.eq_of_mem_replicate hrow] at hx
    exact List.eq_of_mem_replicate hx

/-- C12: for every non-empty nested literal whose rows all have length `n`, the
initializer-list constructor succeeds and returns the matrix whose rows are exactly the
literal's rows: as many rows as the outer literal, `n` columns, and `[i][j]` reading the
`j`-th entry of the `i`-th inner literal. -/
theorem C12_literal_constructor {α : Type} [Zero α] (init : List (List α)) (n : Nat)
    (hne : init ≠ []) (hrows : ∀ r ∈ init, r.length = n) :
    ∃ M, Matrix.ctorInit init = .ok M ∧ M.m_data = init ∧ M.height = init.length ∧
      M.width = .ok n ∧ M.hasDims init.length n ∧
      ∀ i j (hi : i < init.length) (hj : j < (init[i]).length),
        M.read i j = .ok ((init[i])[j]) := by
  cases init with
  | nil => exact absurd rfl hne
  | cons first rest =>
    have hfirst : first.length = n := hrows first (List.mem_cons_self _ _)
    have hpad : (first :: rest).map (padRow first.length) = first :: rest := by
      conv_rhs => rw [← List.map_id (first :: rest)]
      apply List.map_congr_left
      intro r hr
      simp [padRow, hrows r hr, hfirst]
    refine ⟨⟨first :: rest⟩, ?_, rfl, rfl, ?_, ⟨rfl, hrows⟩, ?_⟩
    · rw [ctorInit_spec first rest
        (fun r hr => by rw [hrows r (List.mem_cons_of_mem _ hr), hfirst]), hpad]
    · simp only [Matrix.width, hfirst]
    · intro i j hi hj
      simp only [Matrix.read, Matrix.operator_idx, vecAt, List.getElem?_eq_getElem hi,
        ok_bind, List.getElem?_eq_getElem hj]

theorem C12_witness :
    ∃ M, Matrix.ctorInit ([[1, 2, 3], [4, 5, 6]] : List (List Int)) = .ok M ∧
      M.m_data = [[1, 2, 3], [4, 5, 6]] ∧
      M.height = ([[1, 2, 3], [4, 5, 6]] : List (List Int)).length ∧
      M.width = .ok 3 ∧ M.hasDims ([[1, 2, 3], [4, 5, 6]] : List (List Int)).length 3 ∧
      ∀ i j (hi : i < ([[1, 2, 3], [4, 5, 6]] : List (List Int)).length)
        (hj : j < (([[1, 2, 3], [4, 5, 6]] : List (List Int))[i]).length),
        M.read i j = .ok ((([[1, 2, 3], [4, 5, 6]] : List (List Int))[i])[j]) :=
  C12_literal_constructor _ 3 (by decide) (by decide)

/-- C13 (as stated, refuted): the literal `[[1,2],[3]]` is accepted and silently padded to
`[[1,2],[3,0]]`; the literal `[[1],[2,3]]` makes the constructor write `m_data[1][1]` past
the end of a row of length one, which is undefined behaviour and no reported error. -/
theorem C13_counterexample :
    Matrix.ctorInit ([[1, 2], [3]] : List (List Int)) = .ok ⟨[[1, 2], [3, 0]]⟩ ∧
    Matrix.ctorInit ([[1], [2, 3]] : List (List Int)) = .error .outOfRange ∧
    Fault.outOfRange.kind = .undefinedBehaviour :=
  ⟨rfl, rfl, rfl⟩

/-- C13 (amended): the initializer-list constructor checks no row length.  When no row is
longer than the first, it returns the literal with every row padded with zeros to the
first row's length; when some row is longer than the first, the copy writes past the end
of a matrix row, an unchecked access that is undefined behaviour. -/
theorem C13_ragged_literal_unchecked {α : Type} [Zero α] (first : List α)
    (rest : List (List α)) :
    ((∀ r ∈ rest, r.length ≤ first.length) →
      Matrix.ctorInit (first :: rest) = .ok ⟨(first :: rest).map (padRow first.length)⟩) ∧
    ((∃ r ∈ rest, first.length < r.length) →
      Matrix.ctorInit (first :: rest) = .error .outOfRange) ∧
    Fault.outOfRange.kind = .undefinedBehaviour :=
  ⟨ctorInit_spec first rest, ctorInit_overrun first rest, rfl⟩

theorem C13_witness :
    Matrix.ctorInit ([[1, 2, 3], [4], [5, 6]] : List (List Int))
      = .ok ⟨([[1, 2, 3], [4], [5, 6]] : List (List Int)).map (padRow 3)⟩ ∧
    Matrix.ctorInit ([[1, 2], [3, 4, 5], [6]] : List (List Int)) = .error .outOfRange :=
  ⟨(C13_ragged_literal_unchecked [1, 2, 3] [[4], [5, 6]]).1 (by decide),
   (C13_ragged_literal_unchecked [1, 2] [[3, 4, 5], [6]]).2.1 (by decide)⟩

/-- C14 (as stated, refuted): row access with `i = height` and element access with
`j = length` are made unchecked past the end of the vector; what happens is undefined
behaviour, not a reported `IndexOutOfRange` error. -/
theorem C14_counterexample :
    (∃ e, Matrix.operator_idx (⟨[[1, 2]]⟩ : Matrix Int) 1 = .error e ∧
      e.kind = .undefinedBehaviour) ∧
    (∃ e, vecAt ([1, 2] : List Int) 2 = .error e ∧ e.kind = .undefinedBehaviour) :=
  ⟨⟨.outOfRange, rfl, rfl⟩, ⟨.outOfRange, rfl, rfl⟩⟩

/-- C14 (amended): row access `M[i]` returns the `i`-th row when `i < height(M)`; when
`i ≥ height(M)` the unchecked access is past the end of the row vector, which is
undefined behaviour; likewise reading element `j` of a row is in bounds exactly when `j`
is less than the row's length, and the same undefined behaviour otherwise. -/
theorem C14_unchecked_access {α : Type} (M : Matrix α) (row : List α) (i j : Nat) :
    M.height = M.m_data.length ∧
    (∀ hi : i < M.m_data.length, M.operator_idx i = .ok (M.m_data[i])) ∧
    (M.height ≤ i → M.operator_idx i = .error .outOfRange) ∧
    (∀ hj : j < row.length, vecAt row j = .ok (row[j])) ∧
    ((∃ e, vecAt row j = .error e) ↔ ¬ j < row.length) ∧
    (row.length ≤ j → vecAt row j = .error .outOfRange) ∧
    Fault.outOfRange.kind = .undefinedBehaviour := by
  refine ⟨rfl, ?_, fun hi => vecAt_of_ge _ _ hi, ?_, ⟨?_, ?_⟩, fun hj => vecAt_of_ge _ _ hj,
    rfl⟩
  · intro hi
    simp only [Matrix.operator_idx, vecAt, List.getElem?_eq_getElem hi]
  · intro hj
    simp only [vecAt, List.getElem?_eq_getElem hj]
  · rintro ⟨e, he⟩ hj
    simp only [vecAt, List.getElem?_eq_getElem hj] at he
    cases he
  · intro hj
    exact ⟨.outOfRange, vecAt_of_ge _ _ (Nat.le_of_not_lt hj)⟩

theorem C14_witness :
    Matrix.operator_idx (⟨[[1, 2], [3, 4]]⟩ : Matrix Int) 1 = .ok [3, 4] ∧
    Matrix.operator_idx (⟨[[1, 2], [3, 4]]⟩ : Matrix Int) 2 = .error .outOfRange ∧
    vecAt ([3, 4] : List Int) 1 = .ok 4 ∧
    vecAt ([3, 4] : List Int) 5 = .error .outOfRange :=
  ⟨(C14_unchecked_access (⟨[[1, 2], [3, 4]]⟩ : Matrix Int) [3, 4] 1 1).2.1 (by decide),
   (C14_unchecked_access (⟨[[1, 2], [3, 4]]⟩ : Matrix Int) [3, 4] 2 5).2.2.1 (by decide),
   (C14_unchecked_access (⟨[[1, 2], [3, 4]]⟩ : Matrix Int) [3, 4] 1 1).2.2.2.1 (by decide),
   (C14_unchecked_access (⟨[[1, 2], [3, 4]]⟩ : Matrix Int) [3, 4] 2 5).2.2.2.2.2.1
     (by decide)⟩

/-- C15: rectangularity is an invariant.  Every matrix a constructor produces (default,
square, rectangular, rectangular with fill, nested literal of any row lengths) has all rows
of equal length, and `fill`, every element assignment that is performed, `transpose`,
`matmul_v0` and `operator*` return only matrices with all rows of equal length. -/
theorem C15_rectangularity_invariant (α : Type) [Zero α] [Add α] [Mul α] :
    (Matrix.ctor0 : Matrix α).rectangular ∧
    (∀ n, (Matrix.ctorN n : Matrix α).rectangular) ∧
    (∀ m n, (Matrix.ctorMN m n : Matrix α).rectangular) ∧
    (∀ m n (v : α), (Matrix.ctorMNV m n v).rectangular) ∧
    (∀ (init : List (List α)) M, Matrix.ctorInit init = .ok M → M.rectangular) ∧
    (∀ (M : Matrix α) v, M.rectangular → (M.fill v).rectangular) ∧
    (∀ (M : Matrix α) i j x M', M.rectangular → M.write i j x = .ok M' → M'.rectangular) ∧
    (∀ (M T : Matrix α), M.rectangular → M.transpose = .ok T → T.rectangular) ∧
    (∀ (A B C : Matrix α), A.rectangular → B.rectangular → matmul_v0 A B = .ok C →
      C.rectangular) ∧
    (∀ (A B C : Matrix α), A.rectangular → B.rectangular → A.operator_mul B = .ok C →
      C.rectangular) := by
  refine ⟨?_, ?_, ?_, ?_, ?_, ?_, ?_, ?_, ?_, ?_⟩
  · intro r hr
    cases hr
  · intro n
    exact hasDims_rectangular (Matrix.ctorMN_hasDims n n)
  · intro m n
    exact hasDims_rectangular (Matrix.ctorMN_hasDims m n)
  · intro m n v
    exact hasDims_rectangular (Matrix.ctorMNV_hasDims m n v)
  · intro init M h
    obtain ⟨first, rest, _, hd⟩ := ctorInit_ok_hasDims h
    exact hasDims_rectangular hd
  · intro M v h
    obtain ⟨n, hd⟩ := rectangular_hasDims h
    exact hasDims_rectangular (Matrix.fill_hasDims hd v)
  · intro M i j x M' h hw
    obtain ⟨n, hd⟩ := rectangular_hasDims h
    exact hasDims_rectangular (write_preserves_hasDims hd hw)
  · intro M T _ h
    obtain ⟨m, n, _, hd⟩ := transpose_ok_hasDims h
    exact hasDims_rectangular hd
  · intro A B C _ _ h
    obtain ⟨m, p, n, _, _, hd⟩ := matmul_v0_ok_hasDims h
    exact hasDims_rectangular hd
  · intro A B C _ _ h
    obtain ⟨m1, n1, m2, n2, _, _, hd⟩ := operator_mul_ok_hasDims h
    exact hasDims_rectangular hd

theorem C15_witness :
    Matrix.rectangular (⟨[[1, 2], [3, 0]]⟩ : Matrix Int) ∧
    Matrix.rectangular (⟨[[1, 3], [2, 4]]⟩ : Matrix Int) ∧
    Matrix.rectangular (⟨[[19, 22], [43, 50]]⟩ : Matrix Int) :=
  ⟨(C15_rectangularity_invariant Int).2.2.2.2.1 [[1, 2], [3]] _ rfl,
   (C15_rectangularity_invariant Int).2.2.2.2.2.2.2.1 ⟨[[1, 2], [3, 4]]⟩ _ (by decide) rfl,
   (C15_rectangularity_invariant Int).2.2.2.2.2.2.2.2.2 ⟨[[1, 2], [3, 4]]⟩
     ⟨[[5, 6], [7, 8]]⟩ _ (by decide) (by decide) rfl⟩

/-- C16 (the `operator*` side): over unsigned `w`-bit elements with wraparound, for
compatible rectangular `A` (`m × p`) and `B` (`p × n`) with `m, p ≥ 1`, every cell of
`A * B` is the left-to-right accumulation and equals the exact sum of the products over
the natural numbers reduced modulo `2 ^ w`.  The function `matmul_v0` as it stands in
`matmul.h` has no instantiation: its line 16 binds `b.width()`, a `size_t`, to `[s, n]`. -/
theorem C16_operator_mul_wraparound (w : Nat) (A B : Matrix (UWord w)) (m p n : Nat)
    (hA : A.hasDims m p) (hB : B.hasDims p n) (hm : 1 ≤ m) (hp : 1 ≤ p) :
    ∃ C, A.operator_mul B = .ok C ∧
      ∀ i, i < m → ∀ j, j < n → ∃ c, C.read i j = .ok c ∧ c = cellSum A B p i j ∧
        c.val = (∑ k ∈ Finset.range p, (A.entryD i k).val * (B.entryD k j).val) % 2 ^ w := by
  obtain ⟨D, hD, hDd, hDe⟩ := operator_mul_spec hA hB hm hp (Nat.le_refl p)
  refine ⟨D, hD, fun i hi j hj => ⟨cellSum A B p i j, ?_, rfl, ?_⟩⟩
  · rw [Matrix.read_of_hasDims hDd hi hj, hDe i hi j hj]
  · exact accumulate_val w (fun k => A.entryD i k) (fun k => B.entryD k j) p

theorem C16_witness :
    ∃ C, Matrix.operator_mul (⟨[[⟨200⟩, ⟨100⟩]]⟩ : Matrix (UWord 8)) ⟨[[⟨2⟩], [⟨3⟩]]⟩ = .ok C ∧
      ∀ i, i < 1 → ∀ j, j < 1 → ∃ c, C.read i j = .ok c ∧
        c = cellSum (⟨[[⟨200⟩, ⟨100⟩]]⟩ : Matrix (UWord 8)) ⟨[[⟨2⟩], [⟨3⟩]]⟩ 2 i j ∧
        c.val = (∑ k ∈ Finset.range 2,
          (Matrix.entryD (⟨[[⟨200⟩, ⟨100⟩]]⟩ : Matrix (UWord 8)) i k).val *
          (Matrix.entryD (⟨[[⟨2⟩], [⟨3⟩]]⟩ : Matrix (UWord 8)) k j).val) % 2 ^ 8 :=
  C16_operator_mul_wraparound 8 _ _ 1 2 1 (by decide) (by decide) (by decide) (by decide)

/-- C17 (as stated, refuted): with `A` of shape `2 × 1` and `B` of shape `2 × 2` the inner
dimensions differ, yet `A * B` stays in bounds and returns a matrix; with `A` of shape
`1 × 2` and `B` of shape `1 × 0` there is no output cell and nothing is read at all. -/
theorem C17_counterexample :
    Matrix.operator_mul (⟨[[1], [3]]⟩ : Matrix Int) ⟨[[5, 6], [7, 8]]⟩
      = .ok ⟨[[5, 6], [15, 18]]⟩ ∧
    Matrix.operator_mul (⟨[[1, 2]]⟩ : Matrix Int) ⟨[[]]⟩ = .ok ⟨[[]]⟩ :=
  ⟨rfl, rfl⟩

/-- C17 (amended): for rectangular `A` (`m1 × n1`) and `B` (`m2 × n2`) with `m1, m2, n2 ≥ 1`
and `n1 > m2`, `A * B`, which performs no dimension check, reads past the end of a row of
the transposed right operand: undefined behaviour. -/
theorem C17_operator_mul_reads_past_row {α : Type} [Zero α] [Add α] [Mul α]
    (A B : Matrix α) (m1 n1 m2 n2 : Nat) (hA : A.hasDims m1 n1) (hB : B.hasDims m2 n2)
    (hm1 : 1 ≤ m1) (hm2 : 1 ≤ m2) (hn2 : 1 ≤ n2) (hgt : m2 < n1) :
    A.operator_mul B = .error .outOfRange ∧ Fault.outOfRange.kind = .undefinedBehaviour :=
  ⟨operator_mul_overrun hA hB hm1 hm2 hn2 hgt, rfl⟩

theorem C17_witness :
    Matrix.operator_mul (⟨[[1, 2, 3], [4, 5, 6]]⟩ : Matrix Int) ⟨[[1, 2], [3, 4]]⟩
      = .error .outOfRange ∧ Fault.outOfRange.kind = .undefinedBehaviour :=
  C17_operator_mul_reads_past_row _ _ 2 3 2 2 (by decide) (by decide) (by decide)
    (by decide) (by decide) (by decide)

/-- C18 (the `operator*` side): for rectangular `A` (`m1 × n1`) and `B` (`m2 × n2`) with
`m1 ≥ 1` and `n1 < m2`, `A * B` returns without any fault an `m1 × n2` matrix whose cell
`(i, j)` is the truncated sum over `k < n1` of `A[i][k] * B[k][j]`, ignoring the rows
`n1 .. m2 - 1` of `B`.  The function `matmul_v0` as it stands in `matmul.h` never reaches
its `p == s` assertion: its line 16 binds `b.width()`, a `size_t`, to `[s, n]`. -/
theorem C18_operator_mul_truncates {α : Type} [Zero α] [Add α] [Mul α]
    (A B : Matrix α) (m1 n1 m2 n2 : Nat) (hA : A.hasDims m1 n1) (hB : B.hasDims m2 n2)
    (hm1 : 1 ≤ m1) (hlt : n1 < m2) :
    ∃ C, A.operator_mul B = .ok C ∧ C.hasDims m1 n2 ∧
      ∀ i, i < m1 → ∀ j, j < n2 → C.read i j = .ok (cellSum A B n1 i j) := by
  have hm2 : 1 ≤ m2 := by omega
  obtain ⟨C, hC, hCd, hCe⟩ := operator_mul_spec hA hB hm1 hm2 (Nat.le_of_lt hlt)
  exact ⟨C, hC, hCd, fun i hi j hj => by
    rw [Matrix.read_of_hasDims hCd hi hj, hCe i hi j hj]⟩

theorem C18_witness :
    ∃ C, Matrix.operator_mul (⟨[[1], [3]]⟩ : Matrix Int) ⟨[[5, 6], [7, 8]]⟩ = .ok C ∧
      C.hasDims 2 2 ∧
      ∀ i, i < 2 → ∀ j, j < 2 → C.read i j =
        .ok (cellSum (⟨[[1], [3]]⟩ : Matrix Int) ⟨[[5, 6], [7, 8]]⟩ 1 i j) :=
  C18_operator_mul_truncates _ _ 2 1 2 2 (by decide) (by decide) (by decide) (by decide)

/-- C19 (the `operator*` side): for rectangular matrices `A` (`m × p`) and `B` (`p × n`)
with `m, p, n ≥ 1` over any element type whose multiplication commutes (unbounded integers
and `w`-bit integers with wraparound alike), `transpose(A * B)` and
`transpose(B) * transpose(A)` both succeed and are equal.  The function `matmul_v0` as it
stands in `matmul.h` has no instantiation: its line 16 binds `b.width()`, a `size_t`, to
`[s, n]`. -/
theorem C19_operator_mul_transpose {α : Type} [Zero α] [Add α] [Mul α]
    (hcomm : ∀ x y : α, x * y = y * x) (A B : Matrix α) (m p n : Nat)
    (hA : A.hasDims m p) (hB : B.hasDims p n) (hm : 1 ≤ m) (hp : 1 ≤ p) (hn : 1 ≤ n) :
    ∃ R, (A.operator_mul B >>= Matrix.transpose) = .ok R ∧
      (B.transpose >>= fun Bt => A.transpose >>= fun At => Bt.operator_mul At) = .ok R := by
  obtain ⟨At, hAt, hAtd, hAte⟩ := Matrix.transpose_spec hA hm
  obtain ⟨Bt, hBt, hBtd, hBte⟩ := Matrix.transpose_spec hB hp
  obtain ⟨P, hP, hPd, hPe⟩ := operator_mul_spec hA hB hm hp (Nat.le_refl p)
  obtain ⟨Pt, hPt, hPtd, hPte⟩ := Matrix.transpose_spec hPd hm
  obtain ⟨Q, hQ, hQd, hQe⟩ := operator_mul_spec hBtd hAtd hn hp (Nat.le_refl p)
  refine ⟨Pt, by rw [hP, ok_bind, hPt], ?_⟩
  rw [hBt, ok_bind, hAt, ok_bind, hQ]
  congr 1
  apply Matrix.ext_of_entryD hQd hPtd
  intro j hj i hi
  rw [hQe j hj i hi, hPte i hi j hj, hPe i hi j hj]
  exact cellSum_transpose hcomm hAte hBte hi hj

theorem C19_witness :
    ∃ R, (Matrix.operator_mul (⟨[[⟨200⟩, ⟨100⟩]]⟩ : Matrix (UWord 8))
        ⟨[[⟨2⟩, ⟨7⟩], [⟨3⟩, ⟨9⟩]]⟩ >>= Matrix.transpose) = .ok R ∧
      (Matrix.transpose (⟨[[⟨2⟩, ⟨7⟩], [⟨3⟩, ⟨9⟩]]⟩ : Matrix (UWord 8)) >>= fun Bt =>
        Matrix.transpose (⟨[[⟨200⟩, ⟨100⟩]]⟩ : Matrix (UWord 8)) >>= fun At =>
          Bt.operator_mul At) = .ok R :=
  C19_operator_mul_transpose (UWord.mul_comm 8) _ _ 1 2 2 (by decide) (by decide)
    (by decide) (by decide) (by decide)

end fastmm
